import Mathlib

/-!
# Verification of the TSP impulse-response measurement tool chain

Shallow embedding of the numerically relevant parts of the repository
(`src/tsp_gen.c`, `src/tsp_to_ir.c`, `src/ir_analyze.c`,
`src/adaptive_filter.c`), together with proofs about the embedded
definitions.  C `double` arithmetic is modelled by exact real arithmetic
(or, for the purely rational computations, by an arbitrary linear ordered
field, so the very same definitions can be evaluated on `ℚ`).
-/

namespace Aspl

open Real

/-! ## Embedding of `src/ir_analyze.c` -/

/-- Backward accumulation loop of `schroeder_integral`
(src/ir_analyze.c:80-85): `decay_curve[i] = Σ_{j ≥ i} (ir[j]/32768)²`,
computed from the last sample towards the first. -/
noncomputable def schroeder_energy : List ℤ → List ℝ
  | [] => []
  | v :: rest =>
    let e := schroeder_energy rest
    (((v : ℝ) / 32768) ^ 2 + e.headD 0) :: e

/-- dB conversion of `schroeder_integral` (src/ir_analyze.c:87-97): when the
total energy `decay_curve[0]` is positive, each entry becomes
`10·log10(energy/max_energy)`, with a `-100` floor for entries that are not
positive; otherwise the buffer is left as the raw energies. -/
noncomputable def schroeder_db (ir : List ℤ) : List ℝ :=
  let e := schroeder_energy ir
  let max_energy := e.headD 0
  if 0 < max_energy then
    e.map fun v => if 0 < v then 10 * Real.logb 10 (v / max_energy) else -100
  else e

/-- Scan loop of `calculate_decay_time` (src/ir_analyze.c:106-118):
`i` is the index of the current list head, `st` the start index found so far
(`-1` when none); the scan stops at the first entry at or below `end_db`. -/
def findIntervalAux [LinearOrder α] (start_db end_db : α) :
    List α → ℤ → ℤ → ℤ × ℤ
  | [], _, st => (st, -1)
  | c :: rest, i, st =>
    let st' := if st < 0 ∧ c ≤ start_db ∧ end_db ≤ c then i else st
    if c ≤ end_db then (st', i) else findIntervalAux start_db end_db rest (i + 1) st'

/-- Interval search of `calculate_decay_time` (src/ir_analyze.c:106-118),
starting with both out-parameters at `-1`. -/
def findInterval [LinearOrder α] (decay_curve : List α) (start_db end_db : α) : ℤ × ℤ :=
  findIntervalAux start_db end_db decay_curve 0 (-1)

/-- `sum_x` of the regression loop (src/ir_analyze.c:125-135), `x = i/fs`. -/
def decaySumX (α : Type*) [Field α] (fs : ℕ) (a b : ℕ) : α :=
  ∑ i in Finset.Icc a b, (i : α) / fs

/-- `sum_y` of the regression loop (src/ir_analyze.c:125-135),
`y = decay_curve[i]`. -/
def decaySumY [Field α] (curve : List α) (a b : ℕ) : α :=
  ∑ i in Finset.Icc a b, curve.getD i 0

/-- `sum_xy` of the regression loop (src/ir_analyze.c:125-135). -/
def decaySumXY [Field α] (curve : List α) (fs : ℕ) (a b : ℕ) : α :=
  ∑ i in Finset.Icc a b, ((i : α) / fs) * curve.getD i 0

/-- `sum_x2` of the regression loop (src/ir_analyze.c:125-135). -/
def decaySumX2 (α : Type*) [Field α] (fs : ℕ) (a b : ℕ) : α :=
  ∑ i in Finset.Icc a b, ((i : α) / fs) * ((i : α) / fs)

/-- Regression denominator `n*Σx² - (Σx)²` (src/ir_analyze.c:138) with
`n = b - a + 1` samples. -/
def decayDenominator (α : Type*) [Field α] (fs : ℕ) (a b : ℕ) : α :=
  ((b + 1 - a : ℕ) : α) * decaySumX2 α fs a b - decaySumX α fs a b * decaySumX α fs a b

/-- Fitted slope `(n*Σxy - Σx*Σy) / denominator` (src/ir_analyze.c:143). -/
def decaySlope [Field α] (curve : List α) (fs : ℕ) (a b : ℕ) : α :=
  (((b + 1 - a : ℕ) : α) * decaySumXY curve fs a b -
      decaySumX α fs a b * decaySumY curve a b) / decayDenominator α fs a b

/-- `calculate_decay_time` (src/ir_analyze.c:104-153).  Returns the computed
time together with the two out-parameters `start_idx` and `end_idx`; the
sentinel `-1` signals failure (interval not found, singular design matrix,
or a non-negative slope). -/
def calculate_decay_time [LinearOrderedField α]
    (decay_curve : List α) (fs : ℕ) (start_db end_db : α) : α × ℤ × ℤ :=
  let p := findInterval decay_curve start_db end_db
  let start_idx := p.1
  let end_idx := p.2
  if start_idx < 0 ∨ end_idx < 0 ∨ end_idx ≤ start_idx then (-1, start_idx, end_idx)
  else
    let a := start_idx.toNat
    let b := end_idx.toNat
    if |decayDenominator α fs a b| < 1 / 10 ^ 10 then (-1, start_idx, end_idx)
    else if 0 ≤ decaySlope decay_curve fs a b then (-1, start_idx, end_idx)
    else (-60 / decaySlope decay_curve fs a b, start_idx, end_idx)

/-- RT60 extrapolation from the T10 window in `main`
(src/ir_analyze.c:176-179): `rt60_t10 = (t10 > 0) ? t10 * 6 : -1`. -/
def rt60_from_t10 [LinearOrderedField α] (curve : List α) (fs : ℕ) : α :=
  let t10 := (calculate_decay_time curve fs (-5) (-15)).1
  if 0 < t10 then t10 * 6 else -1

/-- RT60 extrapolation from the T20 window in `main`
(src/ir_analyze.c:181-184): `rt60_t20 = (t20 > 0) ? t20 * 3 : -1`. -/
def rt60_from_t20 [LinearOrderedField α] (curve : List α) (fs : ℕ) : α :=
  let t20 := (calculate_decay_time curve fs (-5) (-25)).1
  if 0 < t20 then t20 * 3 else -1

/-! ## Embedding of `src/adaptive_filter.c` -/

/-- One iteration of the NLMS loop in `nlms_adaptive_filter`
(src/adaptive_filter.c:123-152): shift the delay line, insert the new
sample, predict, compute the error and the regularized input power, and
update the coefficients only when the power exceeds `1e-10`. -/
def nlms_step [LinearOrderedField α] (mu beta : α)
    (p : List α × List α) (xy : α × α) : List α × List α :=
  let h := p.1
  let x_buf := xy.1 :: p.2.dropLast
  let y_hat := (List.zipWith (· * ·) h x_buf).sum
  let e := xy.2 - y_hat
  let x_power := beta + (x_buf.map fun v => v * v).sum
  if 1 / 10 ^ 10 < x_power then
    (List.zipWith (fun hi xi => hi + mu / x_power * e * xi) h x_buf, x_buf)
  else (h, x_buf)

/-- `nlms_adaptive_filter` (src/adaptive_filter.c:112-155): the coefficient
vector and the delay line start at zero and every paired input/output sample
is processed by `nlms_step`. -/
def nlms_adaptive_filter [LinearOrderedField α]
    (x y : List α) (filter_len : ℕ) (mu beta : α) : List α :=
  ((x.zip y).foldl (nlms_step mu beta)
    (List.replicate filter_len 0, List.replicate filter_len 0)).1

/-! ## Embedding of the normalize-and-quantize export step
(src/tsp_to_ir.c:266-277 and src/adaptive_filter.c:215-226) -/

/-- Peak scan `max_amp` (src/tsp_to_ir.c:267-271,
src/adaptive_filter.c:216-220). -/
noncomputable def max_amp (l : List ℝ) : ℝ :=
  l.foldl (fun m v => if m < |v| then |v| else m) 0

/-- The C cast `(int16_t)(sample * 32767.0)` for in-range values:
truncation toward zero. -/
noncomputable def c_trunc (x : ℝ) : ℤ :=
  if 0 ≤ x then ⌊x⌋ else ⌈x⌉

/-- Normalize-and-quantize export loop (src/tsp_to_ir.c:273-277,
src/adaptive_filter.c:222-226): every sample is scaled by `0.9 / max_amp`
and quantized to a 16-bit integer. -/
noncomputable def quantize_export (l : List ℝ) : List ℤ :=
  l.map fun v => c_trunc (v / max_amp l * 0.9 * 32767)

/-! ## Embedding of the input handling in `main` of `src/tsp_to_ir.c` -/

/-- Abort causes in the input phase of `main` (src/tsp_to_ir.c:184-210). -/
inductive TspToIrError
  | readFailure
  | rateMismatch
  deriving DecidableEq

/-- Return value of a *successful* `read_wav` call (src/tsp_to_ir.c:35-78):
the sample count `data_size / 2`.  Failures (unopenable file, short header,
bad magic fields, allocation or short data read) return `-1` instead. -/
def read_wav_ok_result (data_size : ℕ) : ℤ :=
  ((data_size / 2 : ℕ) : ℤ)

/-- Input validation sequence of `main` (src/tsp_to_ir.c:184-210): a negative
read result aborts, then mismatched sample rates abort; no other condition is
checked before the FFT stage. -/
def tsp_to_ir_checks (tsp_len response_len fs_tsp fs_response : ℤ) :
    Option TspToIrError :=
  if tsp_len < 0 then some .readFailure
  else if response_len < 0 then some .readFailure
  else if fs_tsp ≠ fs_response then some .rateMismatch
  else none

/-- Second-period selection in `main` (src/tsp_to_ir.c:228):
`start_idx = (response_len >= tsp_len * 2) ? tsp_len : 0`. -/
def response_start_idx (response_len tsp_len : ℤ) : ℤ :=
  if tsp_len * 2 ≤ response_len then tsp_len else 0

/-- Contents of the zero-initialized `RESPONSE` buffer after the copy loop
(src/tsp_to_ir.c:227-232): `copy_len` samples taken from `start_idx` on,
normalized by `32768`; the remaining entries keep their `calloc` value `0`. -/
noncomputable def response_buffer (response : List ℤ) (tsp_len N : ℕ) : ℕ → ℂ :=
  fun i =>
    let start_idx := if tsp_len * 2 ≤ response.length then tsp_len else 0
    let copy_len := min (response.length - start_idx) N
    if i < copy_len then (((response.getD (start_idx + i) 0 : ℤ) : ℝ) : ℂ) / 32768
    else 0

/-! ## Embedding of `simple_fft` / `simple_ifft`
(src/tsp_to_ir.c:83-140, also duplicated in src/tsp_gen.c:34-61).

The in-place buffer of the C code is modelled as a `List ℂ`.  The two
functions share the same shape: a bit-reversal permutation pass followed by
the Cooley-Tukey stage loop; they differ only in the sign of the twiddle
angle, and the inverse transform finally divides every entry by `n`. -/

/-- The reversed-carry counter step inside the bit-reversal loop
(src/tsp_to_ir.c:86-88): `for (; j & bit; bit >>= 1) j ^= bit; j ^= bit;`
with `bit` starting at `n >> 1`. -/
def revCarry (j bit : ℕ) : ℕ :=
  if h : j &&& bit ≠ 0 then revCarry (j ^^^ bit) (bit / 2) else j ^^^ bit
termination_by bit
decreasing_by
  have hb : bit ≠ 0 := by
    intro hb0
    exact h (by simp [hb0])
  exact Nat.div_lt_self (Nat.pos_of_ne_zero hb) (by norm_num)

/-- The C swap `t = x[i]; x[i] = x[j]; x[j] = t;` (src/tsp_to_ir.c:90). -/
noncomputable def listSwap (x : List ℂ) (i j : ℕ) : List ℂ :=
  (x.set i (x.getD j 0)).set j (x.getD i 0)

/-- One iteration of the bit-reversal loop (src/tsp_to_ir.c:86-91): step the
reversed counter `j` starting from `bit = n >> 1`, then swap when `i < j`. -/
noncomputable def brevStep (n : ℕ) (p : List ℂ × ℕ) (i : ℕ) : List ℂ × ℕ :=
  let j := revCarry p.2 (n / 2)
  (if i < j then listSwap p.1 i j else p.1, j)

/-- The bit-reversal permutation pass (src/tsp_to_ir.c:85-92): iterate
`i = 1 .. n-1`, stepping the reversed counter `j` and swapping `x[i]` with
`x[j]` whenever `i < j`. -/
noncomputable def bitrevPass (n : ℕ) (x : List ℂ) : List ℂ :=
  ((List.range' 1 (n - 1)).foldl (brevStep n) (x, 0)).1

/-- The inner butterfly loop of one block (src/tsp_to_ir.c:98-105): walk the
two halves `us`, `vs` of the block in lock step, carrying the running twiddle
`w` (multiplied by `wlen` after every pair). -/
noncomputable def butterflies (wlen : ℂ) : ℂ → List ℂ → List ℂ → List ℂ × List ℂ
  | _, [], _ => ([], [])
  | _, _ :: _, [] => ([], [])
  | w, u :: us, v :: vs =>
    let t := v * w
    let q := butterflies wlen (w * wlen) us vs
    ((u + t) :: q.1, (u - t) :: q.2)

/-- One block of a butterfly stage (src/tsp_to_ir.c:97-106): the block is
split at `len/2` and recombined by `butterflies` starting from `w = 1`. -/
noncomputable def stageBlock (wlen : ℂ) (len : ℕ) (block : List ℂ) : List ℂ :=
  let q := butterflies wlen 1 (block.take (len / 2)) (block.drop (len / 2))
  q.1 ++ q.2

/-- The outer `i` loop of one stage (src/tsp_to_ir.c:97): process the buffer
in consecutive blocks of size `len`. -/
noncomputable def stageChunks (wlen : ℂ) (len : ℕ) (x : List ℂ) : List ℂ :=
  if h : len = 0 ∨ x = [] then x
  else stageBlock wlen len (x.take len) ++ stageChunks wlen len (x.drop len)
termination_by x.length
decreasing_by
  rcases not_or.mp h with ⟨hlen, hx⟩
  have hxpos : 0 < x.length := List.length_pos.mpr hx
  simp only [List.length_drop]
  omega

/-- The stage loop `for (len = 2; len <= n; len <<= 1)`
(src/tsp_to_ir.c:94-107) for a power-of-two buffer size `n = 2^m`: the loop
body runs once for each `len = 2^1, …, 2^m`, with per-stage twiddle
`w len`. -/
noncomputable def stagesUpTo (w : ℕ → ℂ) : ℕ → List ℂ → List ℂ
  | 0, x => x
  | m + 1, x => stageChunks (w (2 ^ (m + 1))) (2 ^ (m + 1)) (stagesUpTo w m x)

/-- Forward stage twiddle `wlen = cos(2π/len) + i·sin(2π/len)`
(src/tsp_to_ir.c:95-96). -/
noncomputable def fftTwiddle (len : ℕ) : ℂ :=
  (Real.cos (2 * π / len) : ℂ) + (Real.sin (2 * π / len) : ℂ) * Complex.I

/-- Inverse stage twiddle `wlen = cos(-2π/len) + i·sin(-2π/len)`
(src/tsp_to_ir.c:125-126). -/
noncomputable def ifftTwiddle (len : ℕ) : ℂ :=
  (Real.cos (-(2 * π) / len) : ℂ) + (Real.sin (-(2 * π) / len) : ℂ) * Complex.I

/-- `simple_fft` (src/tsp_to_ir.c:83-108) on a buffer of length `n = 2^m`. -/
noncomputable def simple_fft (m : ℕ) (x : List ℂ) : List ℂ :=
  stagesUpTo fftTwiddle m (bitrevPass (2 ^ m) x)

/-- `simple_ifft` (src/tsp_to_ir.c:113-140) on a buffer of length `n = 2^m`:
same structure with the opposite twiddle sign, then division by `n`. -/
noncomputable def simple_ifft (m : ℕ) (x : List ℂ) : List ℂ :=
  (stagesUpTo ifftTwiddle m (bitrevPass (2 ^ m) x)).map (· / ((2 ^ m : ℕ) : ℂ))

/-! ## Embedding of the spectra of `src/tsp_gen.c` and `src/tsp_to_ir.c` -/

/-- TSP phase law `θ(k) = -2πJ(k/N)² - 2πk·n0/N` (src/tsp_gen.c:84) with
`J = N/2` and `n0 = N/4` (src/tsp_gen.c:66-68; integer division as in C). -/
noncomputable def tsp_phase (N k : ℕ) : ℝ :=
  -2 * π * ((N / 2 : ℕ) : ℝ) * ((k : ℝ) / N) ^ 2 - 2 * π * k * ((N / 4 : ℕ) : ℝ) / N

/-- The TSP spectrum built by the synthesis loop (src/tsp_gen.c:79-95): for
`k ≤ N/2` the entry is `exp(iθ(k))` written as `cos θ + i sin θ`, the upper
half is filled by conjugate mirroring, and the Nyquist entry finally has its
imaginary part dropped. -/
noncomputable def tsp_spectrum (N k : ℕ) : ℂ :=
  if k < N / 2 then
    (Real.cos (tsp_phase N k) : ℂ) + (Real.sin (tsp_phase N k) : ℂ) * Complex.I
  else if k = N / 2 then (Real.cos (tsp_phase N k) : ℂ)
  else
    (starRingEnd ℂ)
      ((Real.cos (tsp_phase N (N - k)) : ℂ) +
        (Real.sin (tsp_phase N (N - k)) : ℂ) * Complex.I)

/-- Down-chirp phase `θ(k) = 2πJ(k/N)²` of the inverse filter
(src/tsp_to_ir.c:241) with `J = tsp_len / 2` (src/tsp_to_ir.c:237). -/
noncomputable def inv_filter_phase (tsp_len N k : ℕ) : ℝ :=
  2 * π * ((tsp_len / 2 : ℕ) : ℝ) * ((k : ℝ) / N) ^ 2

/-- The analytically synthesized inverse-filter spectrum `INV_FILTER`
(src/tsp_to_ir.c:235-249): `exp(iθ(k))` for `k ≤ N/2`, conjugate mirroring
for the upper half, and a real Nyquist entry. -/
noncomputable def inv_filter (tsp_len N k : ℕ) : ℂ :=
  if k < N / 2 then
    (Real.cos (inv_filter_phase tsp_len N k) : ℂ) +
      (Real.sin (inv_filter_phase tsp_len N k) : ℂ) * Complex.I
  else if k = N / 2 then (Real.cos (inv_filter_phase tsp_len N k) : ℂ)
  else
    (starRingEnd ℂ)
      ((Real.cos (inv_filter_phase tsp_len N (N - k)) : ℂ) +
        (Real.sin (inv_filter_phase tsp_len N (N - k)) : ℂ) * Complex.I)

/-- The zero-padded normalized `TSP` buffer before its FFT
(src/tsp_to_ir.c:219-222). -/
noncomputable def tsp_padded (tsp : List ℤ) (N : ℕ) : List ℂ :=
  (List.range N).map fun i =>
    if i < tsp.length then (((tsp.getD i 0 : ℤ) : ℝ) : ℂ) / 32768 else 0

/-- The `RESPONSE` buffer before its FFT, as a list (src/tsp_to_ir.c:225-232). -/
noncomputable def response_padded (response : List ℤ) (tsp_len N : ℕ) : List ℂ :=
  (List.range N).map (response_buffer response tsp_len N)

/-- The per-bin deconvolution loop building `IR_FREQ`
(src/tsp_to_ir.c:251-261), for a power-of-two FFT size `N = 2^m`: each bin is
`RESPONSE[k] * INV_FILTER[k]` when `cabs(TSP[k]) > 1e-10`, and `0`
otherwise. -/
noncomputable def ir_freq (tsp response : List ℤ) (m : ℕ) : List ℂ :=
  let N := 2 ^ m
  let TSP := simple_fft m (tsp_padded tsp N)
  let RESPONSE := simple_fft m (response_padded response tsp.length N)
  (List.range N).map fun k =>
    if 1 / 10 ^ 10 < Complex.abs (TSP.getD k 0) then
      RESPONSE.getD k 0 * inv_filter tsp.length N k
    else 0

/-! ## Specification-side definitions used by the proofs -/

/-- The bit-reversal permutation on `m`-bit indices, defined by peeling the
least significant bit. -/
def bitrev : ℕ → ℕ → ℕ
  | 0, _ => 0
  | m + 1, k => k % 2 * 2 ^ m + bitrev m (k / 2)

/-- The bit-reversed reordering of a length-`2^m` buffer. -/
noncomputable def brevList (m : ℕ) (x : List ℂ) : List ℂ :=
  (List.range (2 ^ m)).map fun i => x.getD (bitrev m i) 0

/-- The even-indexed entries of a list. -/
def evens : List ℂ → List ℂ
  | [] => []
  | [a] => [a]
  | a :: _ :: t => a :: evens t

/-- The odd-indexed entries of a list. -/
def odds : List ℂ → List ℂ
  | [] => []
  | [_] => []
  | _ :: b :: t => b :: odds t

/-- The discrete Fourier transform of the first `n` entries of `x` with
twiddle base `w`: entry `k` is `Σ_j x_j · w^(j·k)`. -/
noncomputable def dft (w : ℂ) (n : ℕ) (x : List ℂ) : List ℂ :=
  (List.range n).map fun k => ∑ j in Finset.range n, x.getD j 0 * w ^ (j * k)

/-! ## General list helpers -/

theorem headD_eq_getD (l : List α) (d : α) : l.headD d = l.getD 0 d := by
  cases l <;> rfl

theorem getD_dropLast (l : List α) (i : ℕ) (d : α) (h : i < l.length - 1) :
    l.dropLast.getD i d = l.getD i d := by
  induction l generalizing i with
  | nil => rfl
  | cons a t ih =>
    cases t with
    | nil => simp at h
    | cons b s =>
      cases i with
      | zero => rfl
      | succ i =>
        have hh : i < (b :: s).length - 1 := by
          simp only [List.length_cons] at h ⊢
          omega
        simpa [List.dropLast] using ih i hh

theorem zipWith_sum_eq (a b : List ℝ) (L : ℕ) (ha : a.length = L) (hb : b.length = L) :
    (List.zipWith (· * ·) a b).sum = ∑ i in Finset.range L, a.getD i 0 * b.getD i 0 := by
  induction a generalizing b L with
  | nil =>
    subst ha
    simp
  | cons x t ih =>
    cases b with
    | nil => simp [← hb] at ha
    | cons y s =>
      cases L with
      | zero => simp at ha
      | succ L =>
        simp only [List.length_cons, Nat.succ.injEq] at ha hb
        rw [Finset.sum_range_succ']
        simp only [List.zipWith_cons_cons, List.sum_cons, List.getD_cons_succ,
          List.getD_cons_zero]
        rw [ih s L ha hb]
        ring

theorem zipWith_eq_map_range (f : ℝ → ℝ → ℝ) (a b : List ℝ) (L : ℕ)
    (ha : a.length = L) (hb : b.length = L) :
    List.zipWith f a b = (List.range L).map fun i => f (a.getD i 0) (b.getD i 0) := by
  induction a generalizing b L with
  | nil =>
    subst ha
    simp
  | cons x t ih =>
    cases b with
    | nil => simp [← hb] at ha
    | cons y s =>
      cases L with
      | zero => simp at ha
      | succ L =>
        simp only [List.length_cons, Nat.succ.injEq] at ha hb
        rw [List.range_succ_eq_map]
        simp only [List.zipWith_cons_cons, List.map_cons, List.map_map,
          List.getD_cons_zero, List.cons.injEq]
        refine ⟨trivial, ?_⟩
        rw [ih s L ha hb]
        rfl

/-! ## C2: input validation of `tsp_to_ir` -/

/-- C2 (amended): with both reads successful (non-negative lengths), a sample
rate mismatch between excitation and response makes `main` of `tsp_to_ir`
abort with the rate-mismatch error. -/
theorem c2_rate_mismatch (tsp_len response_len fs_tsp fs_response : ℤ)
    (h1 : 0 ≤ tsp_len) (h2 : 0 ≤ response_len) (h3 : fs_tsp ≠ fs_response) :
    tsp_to_ir_checks tsp_len response_len fs_tsp fs_response =
      some TspToIrError.rateMismatch := by
  unfold tsp_to_ir_checks
  rw [if_neg (by omega), if_neg (by omega), if_pos h3]

/-- Witness for `c2_rate_mismatch` at a concrete mismatched pair. -/
theorem c2_rate_mismatch_witness :
    tsp_to_ir_checks 4 7 48000 44100 = some TspToIrError.rateMismatch :=
  c2_rate_mismatch 4 7 48000 44100 (by norm_num) (by norm_num) (by norm_num)

/-- C2 counterexample: a successful read of a zero-length input returns `0`
samples, and `main` performs no empty-input check at all — with matching
sample rates the validation phase of `tsp_to_ir` reports no error for two
empty inputs, instead of aborting with an invalid-input error. -/
theorem c2_empty_input_counterexample :
    read_wav_ok_result 0 = 0 ∧
      tsp_to_ir_checks (read_wav_ok_result 0) (read_wav_ok_result 0) 48000 48000 =
        none := by
  constructor <;> rfl

/-! ## C5: second-period selection in the deconvolution engine -/

/-- C5: within the copied range, the `RESPONSE` FFT buffer takes its samples
from offset `tsp_len` (the second period) when the response holds at least
two excitation periods, and from offset `0` otherwise. -/
theorem c5_response_offset (response : List ℤ) (tsp_len N i : ℕ) :
    (2 * tsp_len ≤ response.length → i < min (response.length - tsp_len) N →
      response_buffer response tsp_len N i =
        (((response.getD (tsp_len + i) 0 : ℤ) : ℝ) : ℂ) / 32768) ∧
    (response.length < 2 * tsp_len → i < min response.length N →
      response_buffer response tsp_len N i =
        (((response.getD i 0 : ℤ) : ℝ) : ℂ) / 32768) := by
  constructor
  · intro hlen hi
    simp only [response_buffer]
    rw [if_pos (show tsp_len * 2 ≤ response.length by omega)]
    rw [if_pos hi]
  · intro hlen hi
    simp only [response_buffer]
    rw [if_neg (show ¬ tsp_len * 2 ≤ response.length by omega)]
    simp only [Nat.sub_zero, Nat.zero_add]
    rw [if_pos hi]

/-- Witness for `c5_response_offset`: with a four-sample response and a
two-sample excitation, bin `0` of the FFT buffer is response sample `2`. -/
theorem c5_response_offset_witness :
    response_buffer [1, 2, 3, 4] 2 4 0 =
      ((((([1, 2, 3, 4] : List ℤ).getD (2 + 0) 0 : ℤ) : ℝ)) : ℂ) / 32768 :=
  (c5_response_offset [1, 2, 3, 4] 2 4 0).1 (by simp) (by simp)

/-! ## C7: Hermitian symmetry of the synthesized TSP spectrum -/

/-- C7: for a power-of-two length `N`, the TSP spectrum built by
`tsp_gen` satisfies `H(k) = conj(H(N-k))` for `1 ≤ k < N/2`, and the
imaginary parts of `H(0)` and `H(N/2)` vanish. -/
theorem c7_hermitian (N mexp : ℕ) (hN : N = 2 ^ mexp) (hm : 1 ≤ mexp) :
    (∀ k, 1 ≤ k → k < N / 2 →
        tsp_spectrum N k = (starRingEnd ℂ) (tsp_spectrum N (N - k))) ∧
      (tsp_spectrum N 0).im = 0 ∧ (tsp_spectrum N (N / 2)).im = 0 := by
  have hsplit : N = 2 * 2 ^ (mexp - 1) := by
    rw [hN, ← pow_succ']
    congr 1
    omega
  have hhalf : N / 2 = 2 ^ (mexp - 1) := by omega
  have hpos : 1 ≤ 2 ^ (mexp - 1) := Nat.one_le_two_pow
  refine ⟨?_, ?_, ?_⟩
  · intro k hk1 hk2
    rw [tsp_spectrum, if_pos hk2]
    rw [tsp_spectrum, if_neg (by omega), if_neg (by omega)]
    have hkk : N - (N - k) = k := by omega
    rw [hkk, RingHomInvPair.comp_apply_eq₂]
  · rw [tsp_spectrum, if_pos (by omega)]
    have hphase : tsp_phase N 0 = 0 := by
      simp [tsp_phase]
    simp [hphase]
  · rw [tsp_spectrum, if_neg (lt_irrefl _), if_pos rfl]
    simp

/-- Witness for `c7_hermitian` at `N = 8`. -/
theorem c7_hermitian_witness :
    (∀ k, 1 ≤ k → k < 8 / 2 →
        tsp_spectrum 8 k = (starRingEnd ℂ) (tsp_spectrum 8 (8 - k))) ∧
      (tsp_spectrum 8 0).im = 0 ∧ (tsp_spectrum 8 (8 / 2)).im = 0 :=
  c7_hermitian 8 3 (by norm_num) (by norm_num)

/-! ## C10: the normalize-and-quantize export step -/

theorem foldl_amp_ge_init (l : List ℝ) (a : ℝ) :
    a ≤ l.foldl (fun m v => if m < |v| then |v| else m) a := by
  induction l generalizing a with
  | nil => simp
  | cons v t ih =>
    simp only [List.foldl_cons]
    refine le_trans ?_ (ih _)
    split_ifs with h
    · exact le_of_lt h
    · exact le_refl a

theorem max_amp_nonneg (l : List ℝ) : 0 ≤ max_amp l :=
  foldl_amp_ge_init l 0

theorem foldl_amp_ge_mem (l : List ℝ) (a : ℝ) (v : ℝ) (hv : v ∈ l) :
    |v| ≤ l.foldl (fun m v => if m < |v| then |v| else m) a := by
  induction l generalizing a with
  | nil => simp at hv
  | cons u t ih =>
    simp only [List.foldl_cons]
    rcases List.mem_cons.mp hv with h | h
    · subst h
      refine le_trans ?_ (foldl_amp_ge_init t _)
      split_ifs with hc
      · exact le_refl _
      · exact le_of_not_lt hc
    · exact ih _ h

theorem max_amp_ge (l : List ℝ) (v : ℝ) (hv : v ∈ l) : |v| ≤ max_amp l :=
  foldl_amp_ge_mem l 0 v hv

theorem max_amp_all_zero (l : List ℝ) (h : ∀ v ∈ l, v = 0) : max_amp l = 0 := by
  induction l with
  | nil => rfl
  | cons v t ih =>
    have hv : v = 0 := h v (List.mem_cons_self v t)
    have ht : ∀ u ∈ t, u = 0 := fun u hu => h u (List.mem_cons_of_mem v hu)
    subst hv
    simpa [max_amp] using ih ht

theorem abs_c_trunc_le (x : ℝ) (h : |x| ≤ 29490.3) : |c_trunc x| ≤ 29490 := by
  rcases abs_le.mp h with ⟨hlo, hhi⟩
  unfold c_trunc
  split_ifs with hx
  · have h0 : (0 : ℤ) ≤ ⌊x⌋ := Int.floor_nonneg.mpr hx
    have h1 : ⌊x⌋ ≤ ⌊(29490.3 : ℝ)⌋ := Int.floor_le_floor hhi
    have h2 : ⌊(29490.3 : ℝ)⌋ = 29490 := by
      apply Int.floor_eq_iff.mpr
      norm_num
    rw [abs_of_nonneg h0]
    omega
  · have h0 : ⌈x⌉ ≤ 0 := Int.ceil_le.mpr (by exact_mod_cast le_of_not_le hx)
    have h1 : ⌈(-29490.3 : ℝ)⌉ ≤ ⌈x⌉ := Int.ceil_le_ceil hlo
    have h2 : ⌈(-29490.3 : ℝ)⌉ = -29490 := by
      apply Int.ceil_eq_iff.mpr
      norm_num
    rw [abs_of_nonpos h0]
    omega

/-- C10: if the exported buffer contains a nonzero sample, the peak is
positive and every quantized 16-bit output sample has magnitude at most
`0.9·32767`, i.e. at most `29490`; for an identically zero buffer the
computed peak is `0`, so the normalization step divides by zero. -/
theorem c10_export_bound (l : List ℝ) :
    ((∃ v ∈ l, v ≠ 0) → ∀ s ∈ quantize_export l, |s| ≤ 29490) ∧
      ((∀ v ∈ l, v = 0) → max_amp l = 0) := by
  constructor
  · rintro ⟨v0, hv0, hv0ne⟩ s hs
    simp only [quantize_export, List.mem_map] at hs
    obtain ⟨v, hv, rfl⟩ := hs
    have hm : 0 < max_amp l :=
      lt_of_lt_of_le (abs_pos.mpr hv0ne) (max_amp_ge l v0 hv0)
    have hb : |v| ≤ max_amp l := max_amp_ge l v hv
    apply abs_c_trunc_le
    have hdiv : |v / max_amp l| ≤ 1 := by
      rw [abs_div, abs_of_pos hm]
      exact div_le_one_of_le₀ hb (le_of_lt hm)
    have habs : |v / max_amp l * 0.9 * 32767| = |v / max_amp l| * (0.9 * 32767) := by
      rw [abs_mul, abs_mul, abs_of_nonneg (by norm_num : (0 : ℝ) ≤ 0.9),
        abs_of_nonneg (by norm_num : (0 : ℝ) ≤ (32767 : ℝ))]
      ring
    rw [habs]
    calc |v / max_amp l| * (0.9 * 32767) ≤ 1 * (0.9 * 32767) := by
          apply mul_le_mul_of_nonneg_right hdiv
          norm_num
      _ ≤ 29490.3 := by norm_num
  · exact max_amp_all_zero l

/-- Witness for `c10_export_bound` on the one-sample buffer `[1]`. -/
theorem c10_export_bound_witness :
    ∀ s ∈ quantize_export [(1 : ℝ)], |s| ≤ 29490 :=
  (c10_export_bound [(1 : ℝ)]).1 ⟨1, List.mem_singleton_self 1, one_ne_zero⟩

/-! ## C8: Schroeder integration -/

theorem schroeder_energy_length (ir : List ℤ) :
    (schroeder_energy ir).length = ir.length := by
  induction ir with
  | nil => rfl
  | cons v t ih => simpa [schroeder_energy] using ih

theorem sum_Ico_succ_shift (f : ℕ → ℝ) (a n : ℕ) :
    ∑ j in Finset.Ico (a + 1) (n + 1), f j = ∑ j in Finset.Ico a n, f (j + 1) := by
  rw [Finset.sum_Ico_eq_sum_range, Finset.sum_Ico_eq_sum_range]
  simp [Nat.add_right_comm]

theorem schroeder_energy_getD (ir : List ℤ) (i : ℕ) :
    (schroeder_energy ir).getD i 0 =
      ∑ j in Finset.Ico i ir.length, (((ir.getD j 0 : ℤ) : ℝ) / 32768) ^ 2 := by
  induction ir generalizing i with
  | nil => simp [schroeder_energy]
  | cons v t ih =>
    cases i with
    | zero =>
      simp only [schroeder_energy, List.getD_cons_zero, List.length_cons]
      rw [headD_eq_getD, ih 0]
      simp only [← Finset.range_eq_Ico]
      rw [Finset.sum_range_succ']
      simp only [List.getD_cons_succ, List.getD_cons_zero]
      ring
    | succ i =>
      simp only [schroeder_energy, List.getD_cons_succ, List.length_cons]
      rw [ih i, sum_Ico_succ_shift]
      simp only [List.getD_cons_succ]

theorem schroeder_energy_nonneg (ir : List ℤ) (i : ℕ) :
    0 ≤ (schroeder_energy ir).getD i 0 := by
  rw [schroeder_energy_getD]
  exact Finset.sum_nonneg fun j _ => sq_nonneg _

/-- C8 (amended): `schroeder_integral` first builds the backward cumulative
sum of squared normalized samples — a non-negative, monotonically
non-increasing energy sequence whose index `0` holds the total energy — and
then, *provided the total energy is positive*, converts every entry to dB
relative to that peak, substituting the `-100` floor exactly at entries of
zero energy; an all-zero response keeps its raw (zero) energy values. -/
theorem c8_schroeder (ir : List ℤ) :
    (schroeder_energy ir).length = ir.length ∧
      (∀ i, (schroeder_energy ir).getD i 0 =
        ∑ j in Finset.Ico i ir.length, (((ir.getD j 0 : ℤ) : ℝ) / 32768) ^ 2) ∧
      (∀ i, 0 ≤ (schroeder_energy ir).getD i 0) ∧
      (∀ i, (schroeder_energy ir).getD (i + 1) 0 ≤ (schroeder_energy ir).getD i 0) ∧
      (0 < (schroeder_energy ir).headD 0 →
        schroeder_db ir = (schroeder_energy ir).map fun v =>
          if 0 < v then 10 * Real.logb 10 (v / (schroeder_energy ir).headD 0)
          else -100) ∧
      (¬ 0 < (schroeder_energy ir).headD 0 → schroeder_db ir = schroeder_energy ir) := by
  refine ⟨schroeder_energy_length ir, schroeder_energy_getD ir, schroeder_energy_nonneg ir,
    ?_, ?_, ?_⟩
  · intro i
    rw [schroeder_energy_getD, schroeder_energy_getD]
    apply Finset.sum_le_sum_of_subset_of_nonneg
    · exact Finset.Ico_subset_Ico (Nat.le_succ i) (le_refl _)
    · intro j _ _
      exact sq_nonneg _
  · intro hpos
    simp only [schroeder_db]
    rw [if_pos hpos]
  · intro hpos
    simp only [schroeder_db]
    rw [if_neg hpos]

/-- Witness for `c8_schroeder`: the dB-conversion clause applied to the
one-sample response `[16384]` (total energy `1/4 > 0`). -/
theorem c8_schroeder_witness :
    schroeder_db [(16384 : ℤ)] = (schroeder_energy [(16384 : ℤ)]).map fun v =>
      if 0 < v then 10 * Real.logb 10 (v / (schroeder_energy [(16384 : ℤ)]).headD 0)
      else -100 :=
  (c8_schroeder [(16384 : ℤ)]).2.2.2.2.1 (by norm_num [schroeder_energy])

/-- C8 counterexample: on the all-zero one-sample impulse response the total
energy is `0`, the dB conversion is skipped entirely, and the zero-energy
entry stays `0` rather than being replaced by the claimed `-100` dB floor. -/
theorem c8_zero_ir_counterexample :
    schroeder_db [(0 : ℤ)] = [(0 : ℝ)] ∧ (0 : ℝ) ≠ -100 := by
  constructor
  · simp [schroeder_db, schroeder_energy]
  · norm_num

/-! ## C9: the NLMS adaptive filter -/

theorem map_sq_sum_eq (b : List ℝ) (L : ℕ) (hb : b.length = L) :
    (b.map fun v => v * v).sum = ∑ i in Finset.range L, b.getD i 0 * b.getD i 0 := by
  induction b generalizing L with
  | nil =>
    subst hb
    simp
  | cons v t ih =>
    cases L with
    | zero => simp at hb
    | succ L =>
      simp only [List.length_cons, Nat.succ.injEq] at hb
      rw [Finset.sum_range_succ']
      simp only [List.map_cons, List.sum_cons, List.getD_cons_succ, List.getD_cons_zero]
      rw [ih L hb]
      ring

/-- C9: the NLMS filter starts from an all-zero coefficient vector and delay
line and folds `nlms_step` over the paired samples; each step shifts the
delay line (new sample in front, previous samples moved one slot down) and
updates the coefficients by `h[i] += (mu/P)·e·x_buf[i]` with
`P = beta + Σ x_buf[i]²` and `e = y[n] - Σ h[i]·x_buf[i]` exactly when
`P > 1e-10`, leaving them unchanged otherwise. -/
theorem c9_nlms_spec (mu beta : ℝ) (L : ℕ) (hL : 0 < L) :
    (∀ x y : List ℝ,
      nlms_adaptive_filter x y L mu beta =
        ((x.zip y).foldl (nlms_step mu beta)
          (List.replicate L 0, List.replicate L 0)).1) ∧
    ∀ (h buf : List ℝ) (xn yn : ℝ), h.length = L → buf.length = L →
      (nlms_step mu beta (h, buf) (xn, yn)).2 = xn :: buf.dropLast ∧
      (xn :: buf.dropLast).length = L ∧
      (∀ i, 1 ≤ i → i < L → (xn :: buf.dropLast).getD i 0 = buf.getD (i - 1) 0) ∧
      (nlms_step mu beta (h, buf) (xn, yn)).1 =
        (if 1 / 10 ^ 10 < beta + ∑ j in Finset.range L,
              (xn :: buf.dropLast).getD j 0 * (xn :: buf.dropLast).getD j 0 then
          (List.range L).map fun i =>
            h.getD i 0 +
              mu / (beta + ∑ j in Finset.range L,
                  (xn :: buf.dropLast).getD j 0 * (xn :: buf.dropLast).getD j 0) *
                (yn - ∑ j in Finset.range L, h.getD j 0 * (xn :: buf.dropLast).getD j 0) *
                (xn :: buf.dropLast).getD i 0
        else h) := by
  refine ⟨fun x y => rfl, ?_⟩
  intro h buf xn yn hh hb
  have hbuf' : (xn :: buf.dropLast).length = L := by
    simp only [List.length_cons, List.length_dropLast]
    omega
  refine ⟨?_, hbuf', ?_, ?_⟩
  · simp only [nlms_step]
    split <;> rfl
  · intro i h1 hiL
    cases i with
    | zero => omega
    | succ i =>
      simp only [List.getD_cons_succ, Nat.succ_sub_one]
      apply getD_dropLast
      omega
  · simp only [nlms_step]
    rw [map_sq_sum_eq (xn :: buf.dropLast) L hbuf']
    rw [zipWith_sum_eq h (xn :: buf.dropLast) L hh hbuf']
    split_ifs with hcond
    · rw [zipWith_eq_map_range _ h (xn :: buf.dropLast) L hh hbuf']
    · rfl

/-- Witness for `c9_nlms_spec`: the fold characterization at `L = 1` with the
step size and regularization used by `main` (src/adaptive_filter.c:208-209). -/
theorem c9_nlms_spec_witness :
    nlms_adaptive_filter [] [] 1 (1 / 10) (1 / 10 ^ 6) =
      ((List.zip ([] : List ℝ) []).foldl (nlms_step (1 / 10) (1 / 10 ^ 6))
        (List.replicate 1 0, List.replicate 1 0)).1 :=
  (c9_nlms_spec (1 / 10) (1 / 10 ^ 6) 1 one_pos).1 [] []

/-! ## C3: the decay-time sentinel

The sentinel behaviour of `calculate_decay_time` is proved in general.  The
claimed consequence for constant-magnitude (non-decaying) impulse responses
is settled by evaluating the full Schroeder-plus-regression pipeline on a
constant response, which requires transporting the interval scan from the
real dB curve to an equivalent rational proxy. -/

/-- The scan result depends only on the outcomes of the three comparisons
per entry, so it can be transported along any pairing of the real curve with
a rational proxy that preserves those outcomes. -/
theorem findIntervalAux_congr {l₁ : List ℝ} {l₂ : List ℚ} {s e : ℝ} {s' e' : ℚ}
    (hR : List.Forall₂ (fun a b =>
      (a ≤ s ↔ b ≤ s') ∧ (a ≤ e ↔ b ≤ e') ∧ (e ≤ a ↔ e' ≤ b)) l₁ l₂) :
    ∀ i st : ℤ, findIntervalAux s e l₁ i st = findIntervalAux s' e' l₂ i st := by
  induction hR with
  | nil =>
    intro i st
    rfl
  | @cons a b l₁ l₂ hab _ ih =>
    intro i st
    obtain ⟨h1, h2, h3⟩ := hab
    simp only [findIntervalAux]
    have hst : (if st < 0 ∧ a ≤ s ∧ e ≤ a then i else st)
        = if st < 0 ∧ b ≤ s' ∧ e' ≤ b then i else st :=
      if_congr (and_congr Iff.rfl (and_congr h1 h3)) rfl rfl
    rw [← hst]
    exact if_congr h2 rfl (ih _ _)

theorem db_le_iff (x : ℝ) (hx : 0 < x) (q : ℝ) :
    10 * Real.logb 10 (x / 32) ≤ q ↔ x ^ 2 ≤ 1024 * (10 : ℝ) ^ (q / 5 : ℝ) := by
  have h32 : (0 : ℝ) < x / 32 := by positivity
  have hstep : 10 * Real.logb 10 (x / 32) ≤ q ↔ Real.logb 10 (x / 32) ≤ q / 10 := by
    constructor <;> intro h <;> linarith
  rw [hstep, Real.logb_le_iff_le_rpow (by norm_num) h32]
  have hr : (0 : ℝ) ≤ (10 : ℝ) ^ (q / 10 : ℝ) :=
    le_of_lt (Real.rpow_pos_of_pos (by norm_num) _)
  rw [← pow_le_pow_iff_left₀ (le_of_lt h32) hr (two_ne_zero)]
  have hsq : ((10 : ℝ) ^ (q / 10 : ℝ)) ^ 2 = (10 : ℝ) ^ (q / 5 : ℝ) := by
    rw [← Real.rpow_natCast ((10 : ℝ) ^ (q / 10 : ℝ)) 2, ← Real.rpow_mul (by norm_num)]
    congr 1
    ring
  rw [div_pow, hsq, div_le_iff₀ (by norm_num : (0 : ℝ) < 32 ^ 2),
    show ((32 : ℝ) ^ 2) = 1024 by norm_num, mul_comm]

theorem le_db_iff (x : ℝ) (hx : 0 < x) (q : ℝ) :
    q ≤ 10 * Real.logb 10 (x / 32) ↔ 1024 * (10 : ℝ) ^ (q / 5 : ℝ) ≤ x ^ 2 := by
  have h32 : (0 : ℝ) < x / 32 := by positivity
  have hstep : q ≤ 10 * Real.logb 10 (x / 32) ↔ q / 10 ≤ Real.logb 10 (x / 32) := by
    constructor <;> intro h <;> linarith
  rw [hstep, Real.le_logb_iff_rpow_le (by norm_num) h32]
  have hr : (0 : ℝ) ≤ (10 : ℝ) ^ (q / 10 : ℝ) :=
    le_of_lt (Real.rpow_pos_of_pos (by norm_num) _)
  rw [← pow_le_pow_iff_left₀ hr (le_of_lt h32) (two_ne_zero)]
  have hsq : ((10 : ℝ) ^ (q / 10 : ℝ)) ^ 2 = (10 : ℝ) ^ (q / 5 : ℝ) := by
    rw [← Real.rpow_natCast ((10 : ℝ) ^ (q / 10 : ℝ)) 2, ← Real.rpow_mul (by norm_num)]
    congr 1
    ring
  rw [div_pow, hsq, le_div_iff₀ (by norm_num : (0 : ℝ) < 32 ^ 2),
    show ((32 : ℝ) ^ 2) = 1024 by norm_num, mul_comm]

theorem rpow_neg5_div5 : (1024 : ℝ) * (10 : ℝ) ^ ((-5 : ℝ) / 5 : ℝ) = 512 / 5 := by
  rw [show ((-5 : ℝ) / 5 : ℝ) = -1 by norm_num, Real.rpow_neg_one]
  norm_num

theorem rpow_neg15_div5 : (1024 : ℝ) * (10 : ℝ) ^ ((-15 : ℝ) / 5 : ℝ) = 128 / 125 := by
  rw [show ((-15 : ℝ) / 5 : ℝ) = ((-3 : ℤ) : ℝ) by norm_num, Real.rpow_intCast]
  norm_num

theorem sq_le_512_div_5_iff (n : ℕ) : ((n : ℝ) ^ 2 ≤ 512 / 5) ↔ ((n : ℚ) ^ 2 ≤ 512 / 5) := by
  rw [le_div_iff₀ (by norm_num : (0 : ℝ) < 5), le_div_iff₀ (by norm_num : (0 : ℚ) < 5)]
  constructor <;> intro h <;> exact_mod_cast h

theorem sq_le_128_div_125_iff (n : ℕ) :
    ((n : ℝ) ^ 2 ≤ 128 / 125) ↔ ((n : ℚ) ^ 2 ≤ 128 / 125) := by
  rw [le_div_iff₀ (by norm_num : (0 : ℝ) < 125), le_div_iff₀ (by norm_num : (0 : ℚ) < 125)]
  constructor <;> intro h <;> exact_mod_cast h

theorem le_sq_128_div_125_iff (n : ℕ) :
    (128 / 125 ≤ (n : ℝ) ^ 2) ↔ ((128 : ℚ) / 125 ≤ (n : ℚ) ^ 2) := by
  rw [div_le_iff₀ (by norm_num : (0 : ℝ) < 125), div_le_iff₀ (by norm_num : (0 : ℚ) < 125)]
  constructor <;> intro h <;> exact_mod_cast h

theorem getD_map_range (f : ℕ → ℝ) (n i : ℕ) (hi : i < n) :
    ((List.range n).map f).getD i 0 = f i := by
  rw [List.getD_eq_getElem?_getD, List.getElem?_map, List.getElem?_range hi]
  rfl

/-- The double-sum pairing identity behind the sign of the regression slope:
with strictly increasing abscissas and strictly decreasing ordinates the
quantity `n·Σxy - Σx·Σy` is negative. -/
theorem pairing_sum_lt (S : Finset ℕ) (f g : ℕ → ℝ)
    (hf : ∀ i ∈ S, ∀ j ∈ S, i < j → f i < f j)
    (hg : ∀ i ∈ S, ∀ j ∈ S, i < j → g j < g i)
    (hpair : ∃ i ∈ S, ∃ j ∈ S, i < j) :
    (S.card : ℝ) * ∑ i in S, f i * g i < (∑ i in S, f i) * (∑ i in S, g i) := by
  have hexp : ∀ i j : ℕ, (f i - f j) * (g i - g j)
      = f i * g i - f i * g j - f j * g i + f j * g j := fun i j => by ring
  have h1 : ∀ i ∈ S, ∑ j in S, (f i - f j) * (g i - g j)
      = (S.card : ℝ) * (f i * g i) - f i * (∑ j in S, g j) - (∑ j in S, f j) * g i
        + ∑ j in S, f j * g j := by
    intro i _
    simp only [hexp]
    rw [Finset.sum_add_distrib, Finset.sum_sub_distrib, Finset.sum_sub_distrib,
      Finset.sum_const, nsmul_eq_mul, ← Finset.mul_sum, ← Finset.sum_mul]
  have key : ∑ i in S, ∑ j in S, (f i - f j) * (g i - g j)
      = 2 * ((S.card : ℝ) * ∑ i in S, f i * g i
        - (∑ i in S, f i) * (∑ i in S, g i)) := by
    rw [Finset.sum_congr rfl h1]
    rw [Finset.sum_add_distrib, Finset.sum_sub_distrib, Finset.sum_sub_distrib,
      Finset.sum_const, nsmul_eq_mul, ← Finset.mul_sum, ← Finset.sum_mul, ← Finset.mul_sum]
    ring
  have hterm : ∀ p ∈ S ×ˢ S, (f p.1 - f p.2) * (g p.1 - g p.2) ≤ 0 := by
    rintro ⟨i, j⟩ hp
    obtain ⟨hi, hj⟩ := Finset.mem_product.mp hp
    rcases lt_trichotomy i j with h | h | h
    · have h1 : f i - f j < 0 := sub_neg.mpr (hf i hi j hj h)
      have h2 : 0 < g i - g j := sub_pos.mpr (hg i hi j hj h)
      exact le_of_lt (mul_neg_of_neg_of_pos h1 h2)
    · subst h
      simp
    · have h1 : 0 < f i - f j := sub_pos.mpr (hf j hj i hi h)
      have h2 : g i - g j < 0 := sub_neg.mpr (hg j hj i hi h)
      exact le_of_lt (mul_neg_of_pos_of_neg h1 h2)
  obtain ⟨i0, hi0, j0, hj0, hij⟩ := hpair
  have hwit : ((i0, j0) : ℕ × ℕ) ∈ S ×ˢ S := Finset.mem_product.mpr ⟨hi0, hj0⟩
  have hlt0 : (f i0 - f j0) * (g i0 - g j0) < 0 :=
    mul_neg_of_neg_of_pos (sub_neg.mpr (hf i0 hi0 j0 hj0 hij))
      (sub_pos.mpr (hg i0 hi0 j0 hj0 hij))
  have hneg : ∑ p in S ×ˢ S, (f p.1 - f p.2) * (g p.1 - g p.2) < 0 := by
    calc ∑ p in S ×ˢ S, (f p.1 - f p.2) * (g p.1 - g p.2)
        < ∑ _p in S ×ˢ S, (0 : ℝ) :=
          Finset.sum_lt_sum hterm ⟨(i0, j0), hwit, hlt0⟩
      _ = 0 := by simp
  rw [← Finset.sum_product'] at key
  have h2 : 2 * ((S.card : ℝ) * ∑ i in S, f i * g i
      - (∑ i in S, f i) * (∑ i in S, g i)) < 0 := key ▸ hneg
  linarith

/-- Closed form of the Schroeder energy curve of a constant response. -/
theorem schroeder_energy_replicate (n : ℕ) (c : ℤ) :
    schroeder_energy (List.replicate n c) =
      (List.range n).map fun i => ((n - i : ℕ) : ℝ) * (((c : ℤ) : ℝ) / 32768) ^ 2 := by
  induction n with
  | zero => simp [schroeder_energy]
  | succ n ih =>
    have hhead : ((List.range n).map
        (fun i => ((n - i : ℕ) : ℝ) * (((c : ℤ) : ℝ) / 32768) ^ 2)).headD 0
        = (n : ℝ) * (((c : ℤ) : ℝ) / 32768) ^ 2 := by
      cases n with
      | zero => simp
      | succ m =>
        rw [List.range_succ_eq_map]
        simp
    rw [List.replicate_succ]
    simp only [schroeder_energy]
    rw [ih, hhead, List.range_succ_eq_map]
    simp only [List.map_cons, List.map_map]
    congr 1
    · push_cast
      ring
    · apply List.map_congr_left
      intro i hi
      have : (n + 1 - (i + 1) : ℕ) = (n - i : ℕ) := by omega
      simp [Function.comp, this]

/-- C3 (amended): whenever the interval scan fails (start not found, end not
found, or end ≤ start), or the regression denominator is below `1e-10` in
magnitude, or the fitted slope is non-negative, `calculate_decay_time`
returns the failure sentinel `-1`. -/
theorem c3_sentinel {α : Type*} [LinearOrderedField α]
    (curve : List α) (fs : ℕ) (s e : α)
    (hfail :
      ((findInterval curve s e).1 < 0 ∨ (findInterval curve s e).2 < 0 ∨
          (findInterval curve s e).2 ≤ (findInterval curve s e).1) ∨
        |decayDenominator α fs (findInterval curve s e).1.toNat
            (findInterval curve s e).2.toNat| < 1 / 10 ^ 10 ∨
        0 ≤ decaySlope curve fs (findInterval curve s e).1.toNat
            (findInterval curve s e).2.toNat) :
    (calculate_decay_time curve fs s e).1 = -1 := by
  simp only [calculate_decay_time]
  split_ifs with h1 h2 h3
  · rfl
  · rfl
  · rfl
  · rcases hfail with hscan | hden | hslope
    · exact absurd hscan h1
    · exact absurd hden h2
    · exact absurd hslope h3

/-- Witness for `c3_sentinel`: on the all-zero one-entry curve the scan never
finds the interval start, so the result is `-1`. -/
theorem c3_sentinel_witness :
    (calculate_decay_time [(0 : ℚ)] 1 (-5) (-15)).1 = -1 :=
  c3_sentinel [(0 : ℚ)] 1 (-5) (-15) (Or.inl (by decide))

/-- Content of the Schroeder dB curve of the 32-sample constant response. -/
theorem constIR_db :
    schroeder_db (List.replicate 32 (16384 : ℤ)) =
      (List.range 32).map fun i =>
        if 0 < ((32 - i : ℕ) : ℝ) * (((16384 : ℤ) : ℝ) / 32768) ^ 2 then
          10 * Real.logb 10
            (((32 - i : ℕ) : ℝ) * (((16384 : ℤ) : ℝ) / 32768) ^ 2 / 8)
        else -100 := by
  have he := schroeder_energy_replicate 32 (16384 : ℤ)
  have hhead : (schroeder_energy (List.replicate 32 (16384 : ℤ))).headD 0 = 8 := by
    rw [he, headD_eq_getD, getD_map_range _ 32 0 (by norm_num)]
    norm_num
  simp only [schroeder_db]
  rw [if_pos (show 0 < (schroeder_energy (List.replicate 32 (16384 : ℤ))).headD 0 by
    rw [hhead]; norm_num)]
  rw [hhead, he, List.map_map]
  rfl

/-- The interval scan on the real dB curve of the constant response agrees
with the scan on a rational proxy and yields the window `[22, 31]`. -/
theorem constIR_find :
    findInterval (schroeder_db (List.replicate 32 (16384 : ℤ))) (-5 : ℝ) (-15) =
      (22, 31) := by
  rw [constIR_db]
  have hR : List.Forall₂ (fun (a : ℝ) (b : ℚ) =>
      (a ≤ -5 ↔ b ≤ 512 / 5) ∧ (a ≤ -15 ↔ b ≤ 128 / 125) ∧
        (-15 ≤ a ↔ 128 / 125 ≤ b))
      ((List.range 32).map fun i =>
        if 0 < ((32 - i : ℕ) : ℝ) * (((16384 : ℤ) : ℝ) / 32768) ^ 2 then
          10 * Real.logb 10
            (((32 - i : ℕ) : ℝ) * (((16384 : ℤ) : ℝ) / 32768) ^ 2 / 8)
        else -100)
      ((List.range 32).map fun i => ((32 - i : ℕ) : ℚ) ^ 2) := by
    rw [List.forall₂_map_left_iff, List.forall₂_map_right_iff, List.forall₂_same]
    intro i hi
    have hi32 : i < 32 := List.mem_range.mp hi
    have hx : (0 : ℝ) < ((32 - i : ℕ) : ℝ) := by
      have : 0 < 32 - i := by omega
      exact_mod_cast this
    have hpos : 0 < ((32 - i : ℕ) : ℝ) * (((16384 : ℤ) : ℝ) / 32768) ^ 2 :=
      mul_pos hx (by norm_num)
    have harg : ((32 - i : ℕ) : ℝ) * (((16384 : ℤ) : ℝ) / 32768) ^ 2 / 8 =
        ((32 - i : ℕ) : ℝ) / 32 := by
      push_cast
      ring
    rw [if_pos hpos, harg]
    refine ⟨?_, ?_, ?_⟩
    · rw [db_le_iff _ hx (-5), rpow_neg5_div5]
      exact sq_le_512_div_5_iff (32 - i)
    · rw [db_le_iff _ hx (-15), rpow_neg15_div5]
      exact sq_le_128_div_125_iff (32 - i)
    · rw [le_db_iff _ hx (-15), rpow_neg15_div5]
      exact le_sq_128_div_125_iff (32 - i)
  unfold findInterval
  rw [findIntervalAux_congr hR]
  norm_num [findIntervalAux, List.range_succ]

theorem Icc_sum_id_eval : (∑ i in Finset.Icc (22 : ℕ) 31, i) = 265 := by decide

theorem Icc_sum_sq_eval : (∑ i in Finset.Icc (22 : ℕ) 31, i * i) = 7105 := by decide

theorem constIR_denominator : decayDenominator ℝ 1 22 31 = 825 := by
  unfold decayDenominator decaySumX decaySumX2
  simp only [Nat.cast_one]
  have h1 : (∑ i in Finset.Icc (22 : ℕ) 31, (i : ℝ) / 1) = 265 := by
    simp only [div_one]
    rw [← Nat.cast_sum, Icc_sum_id_eval]
    norm_num
  have h2 : (∑ i in Finset.Icc (22 : ℕ) 31, ((i : ℝ) / 1) * ((i : ℝ) / 1)) = 7105 := by
    simp only [div_one]
    have hc : (∑ i in Finset.Icc (22 : ℕ) 31, (i : ℝ) * (i : ℝ)) =
        ((∑ i in Finset.Icc (22 : ℕ) 31, i * i : ℕ) : ℝ) := by
      rw [Nat.cast_sum]
      push_cast
      rfl
    rw [hc, Icc_sum_sq_eval]
    norm_num
  rw [h1, h2]
  norm_num

theorem constIR_slope_neg :
    decaySlope (schroeder_db (List.replicate 32 (16384 : ℤ))) 1 22 31 < 0 := by
  unfold decaySlope
  apply div_neg_of_neg_of_pos
  · unfold decaySumXY decaySumX decaySumY
    simp only [Nat.cast_one]
    have hp := pairing_sum_lt (Finset.Icc 22 31) (fun i => (i : ℝ) / 1)
      (fun i => (schroeder_db (List.replicate 32 (16384 : ℤ))).getD i 0)
      (by
        intro i _ j _ hij
        simp only [div_one]
        exact_mod_cast hij)
      (by
        intro i hi j hj hij
        obtain ⟨hi1, hi2⟩ := Finset.mem_Icc.mp hi
        obtain ⟨hj1, hj2⟩ := Finset.mem_Icc.mp hj
        show (schroeder_db (List.replicate 32 (16384 : ℤ))).getD j 0 <
          (schroeder_db (List.replicate 32 (16384 : ℤ))).getD i 0
        rw [constIR_db, getD_map_range _ 32 i (by omega), getD_map_range _ 32 j (by omega)]
        have hxi : (0 : ℝ) < ((32 - i : ℕ) : ℝ) := by
          have : 0 < 32 - i := by omega
          exact_mod_cast this
        have hxj : (0 : ℝ) < ((32 - j : ℕ) : ℝ) := by
          have : 0 < 32 - j := by omega
          exact_mod_cast this
        rw [if_pos (mul_pos hxi (by norm_num)), if_pos (mul_pos hxj (by norm_num))]
        have hargi : ((32 - i : ℕ) : ℝ) * (((16384 : ℤ) : ℝ) / 32768) ^ 2 / 8 =
            ((32 - i : ℕ) : ℝ) / 32 := by push_cast; ring
        have hargj : ((32 - j : ℕ) : ℝ) * (((16384 : ℤ) : ℝ) / 32768) ^ 2 / 8 =
            ((32 - j : ℕ) : ℝ) / 32 := by push_cast; ring
        rw [hargi, hargj]
        have hlt : ((32 - j : ℕ) : ℝ) / 32 < ((32 - i : ℕ) : ℝ) / 32 := by
          apply div_lt_div_of_pos_right ?_ (by norm_num)
          have : 32 - j < 32 - i := by omega
          exact_mod_cast this
        have := Real.logb_lt_logb (b := 10) (by norm_num) (by positivity) hlt
        linarith)
      ⟨22, by decide, 23, by decide, by norm_num⟩
    have hcard : ((31 + 1 - 22 : ℕ) : ℝ) = ((Finset.Icc (22 : ℕ) 31).card : ℝ) := by
      rw [Nat.card_Icc]
    rw [hcard]
    have hp2 : ((Finset.Icc (22 : ℕ) 31).card : ℝ) *
        ∑ i in Finset.Icc (22 : ℕ) 31,
          (i : ℝ) / 1 * (schroeder_db (List.replicate 32 (16384 : ℤ))).getD i 0 <
        (∑ i in Finset.Icc (22 : ℕ) 31, (i : ℝ) / 1) *
          ∑ i in Finset.Icc (22 : ℕ) 31,
            (schroeder_db (List.replicate 32 (16384 : ℤ))).getD i 0 := hp
    exact sub_neg.mpr hp2
  · rw [constIR_denominator]
    norm_num

/-- C3 counterexample: the 32-sample constant-magnitude impulse response
(value `16384` everywhere, `fs = 1`) makes `calculate_decay_time` on its
Schroeder dB curve return a *positive* decay time for the T10 window — the
backward energy integral of a constant signal is itself a decaying curve, so
the sentinel clause claimed for non-decaying responses does not hold. -/
theorem c3_constant_ir_counterexample :
    0 < (calculate_decay_time (schroeder_db (List.replicate 32 (16384 : ℤ)))
      1 (-5 : ℝ) (-15)).1 := by
  simp only [calculate_decay_time]
  rw [constIR_find]
  rw [if_neg (by norm_num)]
  rw [show (22 : ℤ).toNat = 22 from rfl, show (31 : ℤ).toNat = 31 from rfl]
  rw [if_neg (by rw [constIR_denominator]; norm_num)]
  rw [if_neg (not_le.mpr constIR_slope_neg)]
  exact div_pos_iff.mpr (Or.inr ⟨by norm_num, constIR_slope_neg⟩)

/-! ## C1: the value returned by `calculate_decay_time` and the RT60
extrapolation

The code is exercised on the ideal ramp curve `curve[i] = -i` dB at
`fs = 1` Hz, whose fitted slope is exactly `-1` dB/s. -/

theorem forall₂_map_range {α β : Type*} {R : α → β → Prop} :
    ∀ (n : ℕ) (f : ℕ → α) (g : ℕ → β),
      (∀ i, i < n → R (f i) (g i)) →
      List.Forall₂ R ((List.range n).map f) ((List.range n).map g) := by
  intro n
  induction n with
  | zero =>
    intro f g _
    simp
  | succ n ih =>
    intro f g h
    rw [List.range_succ_eq_map]
    simp only [List.map_cons, List.map_map]
    exact List.Forall₂.cons (h 0 (Nat.succ_pos n))
      (ih (f ∘ Nat.succ) (g ∘ Nat.succ) fun i hi => h (i + 1) (by omega))

/-- The interval scan on the ramp for the T10 window. -/
theorem ramp_find_T10 :
    findInterval ((List.range 31).map fun i : ℕ => -(i : ℝ)) (-5) (-15) = (5, 15) := by
  have hR : List.Forall₂ (fun (a : ℝ) (b : ℚ) =>
      (a ≤ -5 ↔ b ≤ -5) ∧ (a ≤ -15 ↔ b ≤ -15) ∧ (-15 ≤ a ↔ -15 ≤ b))
      ((List.range 31).map fun i : ℕ => -(i : ℝ))
      ((List.range 31).map fun i : ℕ => -(i : ℚ)) := by
    apply forall₂_map_range 31 (fun i : ℕ => -(i : ℝ)) (fun i : ℕ => -(i : ℚ))
    intro i _
    refine ⟨?_, ?_, ?_⟩ <;> constructor <;> intro h <;> exact_mod_cast h
  unfold findInterval
  rw [findIntervalAux_congr hR]
  norm_num [findIntervalAux, List.range_succ]

/-- The interval scan on the ramp for the T20 window. -/
theorem ramp_find_T20 :
    findInterval ((List.range 31).map fun i : ℕ => -(i : ℝ)) (-5) (-25) = (5, 25) := by
  have hR : List.Forall₂ (fun (a : ℝ) (b : ℚ) =>
      (a ≤ -5 ↔ b ≤ -5) ∧ (a ≤ -25 ↔ b ≤ -25) ∧ (-25 ≤ a ↔ -25 ≤ b))
      ((List.range 31).map fun i : ℕ => -(i : ℝ))
      ((List.range 31).map fun i : ℕ => -(i : ℚ)) := by
    apply forall₂_map_range 31 (fun i : ℕ => -(i : ℝ)) (fun i : ℕ => -(i : ℚ))
    intro i _
    refine ⟨?_, ?_, ?_⟩ <;> constructor <;> intro h <;> exact_mod_cast h
  unfold findInterval
  rw [findIntervalAux_congr hR]
  norm_num [findIntervalAux, List.range_succ]

/-- The four regression sums on the ramp curve over a window `[a, b]`. -/
theorem ramp_sums (a b : ℕ) (hb : b < 31) (S1 S2 : ℕ)
    (h1 : (∑ i in Finset.Icc a b, i) = S1)
    (h2 : (∑ i in Finset.Icc a b, i * i) = S2) :
    decaySumX ℝ 1 a b = S1 ∧
    decaySumX2 ℝ 1 a b = S2 ∧
    decaySumY ((List.range 31).map fun i : ℕ => -(i : ℝ)) a b = -(S1 : ℝ) ∧
    decaySumXY ((List.range 31).map fun i : ℕ => -(i : ℝ)) 1 a b = -(S2 : ℝ) := by
  have hsq : (∑ i in Finset.Icc a b, (i : ℝ) * (i : ℝ)) =
      ((∑ i in Finset.Icc a b, i * i : ℕ) : ℝ) := by
    rw [Nat.cast_sum]
    push_cast
    rfl
  refine ⟨?_, ?_, ?_, ?_⟩
  · unfold decaySumX
    simp only [Nat.cast_one, div_one]
    rw [← Nat.cast_sum, h1]
  · unfold decaySumX2
    simp only [Nat.cast_one, div_one]
    rw [hsq, h2]
  · unfold decaySumY
    have hg : ∀ i ∈ Finset.Icc a b,
        ((List.range 31).map fun i : ℕ => -(i : ℝ)).getD i 0 = -(i : ℝ) := by
      intro i hi
      have := Finset.mem_Icc.mp hi
      exact getD_map_range _ 31 i (by omega)
    rw [Finset.sum_congr rfl hg, Finset.sum_neg_distrib, ← Nat.cast_sum, h1]
  · unfold decaySumXY
    simp only [Nat.cast_one, div_one]
    have hg : ∀ i ∈ Finset.Icc a b,
        (i : ℝ) * ((List.range 31).map fun i : ℕ => -(i : ℝ)).getD i 0 =
          -((i : ℝ) * (i : ℝ)) := by
      intro i hi
      have := Finset.mem_Icc.mp hi
      rw [getD_map_range _ 31 i (by omega)]
      ring
    rw [Finset.sum_congr rfl hg, Finset.sum_neg_distrib, hsq, h2]

/-- Full evaluation of `calculate_decay_time` on the ramp, T10 window. -/
theorem ramp_T10_eval :
    calculate_decay_time ((List.range 31).map fun i : ℕ => -(i : ℝ)) 1 (-5) (-15) =
      (60, 5, 15) ∧
    decaySlope ((List.range 31).map fun i : ℕ => -(i : ℝ)) 1 5 15 = -1 := by
  obtain ⟨hX, hX2, hY, hXY⟩ :=
    ramp_sums 5 15 (by norm_num) 110 1210 (by decide) (by decide)
  have hden : decayDenominator ℝ 1 5 15 = 1210 := by
    unfold decayDenominator
    rw [hX, hX2]
    norm_num
  have hslope : decaySlope ((List.range 31).map fun i : ℕ => -(i : ℝ)) 1 5 15 = -1 := by
    unfold decaySlope
    rw [hX, hY, hXY, hden]
    norm_num
  refine ⟨?_, hslope⟩
  simp only [calculate_decay_time]
  rw [ramp_find_T10]
  rw [if_neg (by norm_num)]
  rw [show (5 : ℤ).toNat = 5 from rfl, show (15 : ℤ).toNat = 15 from rfl]
  rw [if_neg (by rw [hden]; norm_num)]
  rw [if_neg (by rw [hslope]; norm_num)]
  rw [hslope]
  norm_num [Prod.ext_iff]

/-- Full evaluation of `calculate_decay_time` on the ramp, T20 window. -/
theorem ramp_T20_eval :
    calculate_decay_time ((List.range 31).map fun i : ℕ => -(i : ℝ)) 1 (-5) (-25) =
      (60, 5, 25) ∧
    decaySlope ((List.range 31).map fun i : ℕ => -(i : ℝ)) 1 5 25 = -1 := by
  obtain ⟨hX, hX2, hY, hXY⟩ :=
    ramp_sums 5 25 (by norm_num) 315 5495 (by decide) (by decide)
  have hden : decayDenominator ℝ 1 5 25 = 16170 := by
    unfold decayDenominator
    rw [hX, hX2]
    norm_num
  have hslope : decaySlope ((List.range 31).map fun i : ℕ => -(i : ℝ)) 1 5 25 = -1 := by
    unfold decaySlope
    rw [hX, hY, hXY, hden]
    norm_num
  refine ⟨?_, hslope⟩
  simp only [calculate_decay_time]
  rw [ramp_find_T20]
  rw [if_neg (by norm_num)]
  rw [show (5 : ℤ).toNat = 5 from rfl, show (25 : ℤ).toNat = 25 from rfl]
  rw [if_neg (by rw [hden]; norm_num)]
  rw [if_neg (by rw [hslope]; norm_num)]
  rw [hslope]
  norm_num [Prod.ext_iff]

/-- C1: on the ideal `-1` dB/sample ramp (fitted slope exactly `-1` dB/s)
`calculate_decay_time` returns `60` for *both* the T10 window (-5→-15 dB) and
the T20 window (-5→-25 dB) — the `-60/slope` value, not the claimed
regression-implied window crossing time `(start_db - end_db)/|slope|`
(which would be `10` and `20`), — and `main` then multiplies once more by
`6` and `3`, reporting RT60 values of `360` s and `180` s for a curve whose
true RT60 is `60` s. -/
theorem c1_decay_time_eval :
    (calculate_decay_time ((List.range 31).map fun i : ℕ => -(i : ℝ)) 1 (-5) (-15)).1 = 60 ∧
    (calculate_decay_time ((List.range 31).map fun i : ℕ => -(i : ℝ)) 1 (-5) (-25)).1 = 60 ∧
    rt60_from_t10 ((List.range 31).map fun i : ℕ => -(i : ℝ)) 1 = 360 ∧
    rt60_from_t20 ((List.range 31).map fun i : ℕ => -(i : ℝ)) 1 = 180 ∧
    (calculate_decay_time ((List.range 31).map fun i : ℕ => -(i : ℝ)) 1 (-5) (-15)).1 ≠
      ((-5 : ℝ) - (-15)) /
        |decaySlope ((List.range 31).map fun i : ℕ => -(i : ℝ)) 1 5 15| := by
  obtain ⟨h10, hs10⟩ := ramp_T10_eval
  obtain ⟨h20, hs20⟩ := ramp_T20_eval
  refine ⟨?_, ?_, ?_, ?_, ?_⟩
  · rw [h10]
  · rw [h20]
  · unfold rt60_from_t10
    rw [h10]
    norm_num
  · unfold rt60_from_t20
    rw [h20]
    norm_num
  · rw [h10, hs10]
    norm_num

/-! ## C6: the per-bin deconvolution rule -/

theorem getD_map_range_c {α : Type*} (f : ℕ → α) (d : α) (n i : ℕ) (hi : i < n) :
    ((List.range n).map f).getD i d = f i := by
  rw [List.getD_eq_getElem?_getD, List.getElem?_map, List.getElem?_range hi]
  rfl

/-- C6: each bin of `IR_FREQ` is the response spectrum times the analytically
synthesized inverse filter when the magnitude of the *excitation* spectrum
`TSP` at that bin exceeds `1e-10`, and `0` otherwise; the threshold is tested
on `TSP`, not on the inverse filter used in the multiplication. -/
theorem c6_per_bin (tsp response : List ℤ) (m k : ℕ) (hk : k < 2 ^ m) :
    (ir_freq tsp response m).getD k 0 =
      if 1 / 10 ^ 10 <
          Complex.abs ((simple_fft m (tsp_padded tsp (2 ^ m))).getD k 0) then
        (simple_fft m (response_padded response tsp.length (2 ^ m))).getD k 0 *
          inv_filter tsp.length (2 ^ m) k
      else 0 := by
  simp only [ir_freq]
  rw [getD_map_range_c _ _ (2 ^ m) k hk]

/-- Witness for `c6_per_bin` at `m = 1`, `k = 1` on empty inputs. -/
theorem c6_per_bin_witness :
    (ir_freq [] [] 1).getD 1 0 =
      if 1 / 10 ^ 10 <
          Complex.abs ((simple_fft 1 (tsp_padded [] (2 ^ 1))).getD 1 0) then
        (simple_fft 1 (response_padded [] ([] : List ℤ).length (2 ^ 1))).getD 1 0 *
          inv_filter ([] : List ℤ).length (2 ^ 1) 1
      else 0 :=
  c6_per_bin [] [] 1 1 (by norm_num)

/-! ## C4: the FFT/IFFT round trip

The iterative radix-2 transform is verified against the explicit discrete
Fourier sum: the incremental bit-reversal pass realizes the bit-reversal
permutation, the stage loop then computes the DFT by the Danielson-Lanczos
recursion, and the forward/inverse DFT pair cancels by root-of-unity
orthogonality.  All of this is exact real/complex arithmetic, so the
round trip reproduces the input exactly — in particular within the `1e-9`
relative tolerance the specification asks for. -/

theorem bitrev_lt (m : ℕ) : ∀ k, bitrev m k < 2 ^ m := by
  induction m with
  | zero =>
    intro k
    simp [bitrev]
  | succ m ih =>
    intro k
    have h1 : k % 2 ≤ 1 := Nat.le_of_lt_succ (Nat.mod_lt k (by norm_num))
    have h2 : bitrev m (k / 2) < 2 ^ m := ih (k / 2)
    simp only [bitrev, pow_succ]
    nlinarith

theorem bitrev_zero_eq (m : ℕ) : bitrev m 0 = 0 := by
  induction m with
  | zero => rfl
  | succ m ih => simp [bitrev, ih]

theorem bitrev_succ_lt (m : ℕ) : ∀ j, j < 2 ^ m → bitrev (m + 1) j = 2 * bitrev m j := by
  induction m with
  | zero =>
    intro j hj
    interval_cases j
    rfl
  | succ m ih =>
    intro j hj
    have hj2 : j / 2 < 2 ^ m := by omega
    show j % 2 * 2 ^ (m + 1) + bitrev (m + 1) (j / 2) = 2 * bitrev (m + 1) j
    rw [ih (j / 2) hj2]
    show j % 2 * 2 ^ (m + 1) + 2 * bitrev m (j / 2) =
      2 * (j % 2 * 2 ^ m + bitrev m (j / 2))
    rw [pow_succ]
    ring

theorem bitrev_succ_ge (m : ℕ) : ∀ j, j < 2 ^ m →
    bitrev (m + 1) (2 ^ m + j) = 2 * bitrev m j + 1 := by
  induction m with
  | zero =>
    intro j hj
    interval_cases j
    rfl
  | succ m ih =>
    intro j hj
    have hmod : (2 ^ (m + 1) + j) % 2 = j % 2 := by
      have : 2 ^ (m + 1) + j = j + 2 * 2 ^ m := by
        rw [pow_succ]
        ring
      rw [this, Nat.add_mul_mod_self_left]
    have hdiv : (2 ^ (m + 1) + j) / 2 = 2 ^ m + j / 2 := by
      have : 2 ^ (m + 1) + j = 2 * 2 ^ m + j := by
        rw [pow_succ]
        ring
      rw [this, Nat.mul_add_div (by norm_num)]
    have hj2 : j / 2 < 2 ^ m := by omega
    show (2 ^ (m + 1) + j) % 2 * 2 ^ (m + 1) + bitrev (m + 1) ((2 ^ (m + 1) + j) / 2) =
      2 * bitrev (m + 1) j + 1
    rw [hmod, hdiv, ih (j / 2) hj2]
    show j % 2 * 2 ^ (m + 1) + (2 * bitrev m (j / 2) + 1) =
      2 * (j % 2 * 2 ^ m + bitrev m (j / 2)) + 1
    rw [pow_succ]
    ring

theorem bitrev_bitrev (m : ℕ) : ∀ k, k < 2 ^ m → bitrev m (bitrev m k) = k := by
  induction m with
  | zero =>
    intro k hk
    interval_cases k
    rfl
  | succ m ih =>
    intro k hk
    have hk2 : k / 2 < 2 ^ m := by omega
    have hrev : bitrev m (k / 2) < 2 ^ m := bitrev_lt m (k / 2)
    rcases Nat.mod_two_eq_zero_or_one k with hpar | hpar
    · have h1 : bitrev (m + 1) k = bitrev m (k / 2) := by
        show k % 2 * 2 ^ m + bitrev m (k / 2) = bitrev m (k / 2)
        rw [hpar]
        ring
      rw [h1, bitrev_succ_lt m _ hrev, ih (k / 2) hk2]
      omega
    · have h1 : bitrev (m + 1) k = 2 ^ m + bitrev m (k / 2) := by
        show k % 2 * 2 ^ m + bitrev m (k / 2) = 2 ^ m + bitrev m (k / 2)
        rw [hpar]
        ring
      rw [h1, bitrev_succ_ge m _ hrev, ih (k / 2) hk2]
      omega

theorem land_two_pow_eq_zero (j k : ℕ) (h : j < 2 ^ k) : j &&& 2 ^ k = 0 := by
  apply Nat.eq_of_testBit_eq
  intro t
  rw [Nat.testBit_land, Nat.testBit_two_pow, Nat.zero_testBit]
  rcases eq_or_ne k t with rfl | hne
  · rw [Nat.testBit_eq_false_of_lt h]
    simp
  · simp [hne]

theorem xor_two_pow_add_self (j k : ℕ) (h : j < 2 ^ k) : j ^^^ 2 ^ k = 2 ^ k + j := by
  apply Nat.eq_of_testBit_eq
  intro t
  rw [Nat.testBit_xor, Nat.testBit_two_pow]
  rcases lt_trichotomy t k with ht | rfl | ht
  · rw [Nat.testBit_two_pow_add_gt ht]
    simp [Nat.ne_of_gt ht]
  · rw [Nat.testBit_two_pow_add_eq, Nat.testBit_eq_false_of_lt h]
    simp
  · have hlt : 2 ^ k + j < 2 ^ t := by
      have h1 : 2 ^ k + j < 2 ^ (k + 1) := by
        rw [pow_succ]
        omega
      have h2 : 2 ^ (k + 1) ≤ 2 ^ t := Nat.pow_le_pow_right (by norm_num) ht
      omega
    rw [Nat.testBit_eq_false_of_lt hlt,
      Nat.testBit_eq_false_of_lt (lt_of_lt_of_le h (Nat.pow_le_pow_right (by norm_num) (le_of_lt ht)))]
    simp [Nat.ne_of_lt ht]

theorem xor_two_pow_cancel (j k : ℕ) (h : j < 2 ^ k) : (2 ^ k + j) ^^^ 2 ^ k = j := by
  apply Nat.eq_of_testBit_eq
  intro t
  rw [Nat.testBit_xor, Nat.testBit_two_pow]
  rcases lt_trichotomy t k with ht | rfl | ht
  · rw [Nat.testBit_two_pow_add_gt ht]
    simp [Nat.ne_of_gt ht]
  · rw [Nat.testBit_two_pow_add_eq, Nat.testBit_eq_false_of_lt h]
    simp
  · have hlt : 2 ^ k + j < 2 ^ t := by
      have h1 : 2 ^ k + j < 2 ^ (k + 1) := by
        rw [pow_succ]
        omega
      have h2 : 2 ^ (k + 1) ≤ 2 ^ t := Nat.pow_le_pow_right (by norm_num) ht
      omega
    rw [Nat.testBit_eq_false_of_lt hlt,
      Nat.testBit_eq_false_of_lt (lt_of_lt_of_le h (Nat.pow_le_pow_right (by norm_num) (le_of_lt ht)))]
    simp [Nat.ne_of_lt ht]

theorem land_two_pow_add_ne_zero (j k : ℕ) (h : j < 2 ^ k) :
    (2 ^ k + j) &&& 2 ^ k ≠ 0 := by
  intro hcontra
  have htb : ((2 ^ k + j) &&& 2 ^ k).testBit k = true := by
    rw [Nat.testBit_land, Nat.testBit_two_pow, Nat.testBit_two_pow_add_eq,
      Nat.testBit_eq_false_of_lt h]
    simp
  rw [hcontra, Nat.zero_testBit] at htb
  exact Bool.false_ne_true htb

/-- The reversed-carry increment: one `revCarry` step turns the bit-reversal
of `i` into the bit-reversal of `i + 1`. -/
theorem revCarry_bitrev (m : ℕ) : ∀ i, i + 1 < 2 ^ (m + 1) →
    revCarry (bitrev (m + 1) i) (2 ^ m) = bitrev (m + 1) (i + 1) := by
  induction m with
  | zero =>
    intro i hi
    have hi0 : i = 0 := by omega
    subst hi0
    rw [bitrev_zero_eq, revCarry]
    norm_num [bitrev]
  | succ m ih =>
    intro i hi
    have hp : (2 : ℕ) ^ (m + 2) = 2 * 2 ^ (m + 1) := by
      rw [pow_succ]
      ring
    have hr : bitrev (m + 1) (i / 2) < 2 ^ (m + 1) := bitrev_lt _ _
    rcases Nat.mod_two_eq_zero_or_one i with hpar | hpar
    · have h1 : bitrev (m + 2) i = bitrev (m + 1) (i / 2) := by
        show i % 2 * 2 ^ (m + 1) + bitrev (m + 1) (i / 2) = _
        rw [hpar]
        ring
      rw [h1, revCarry, dif_neg (by
        simp only [ne_eq, not_not]
        exact land_two_pow_eq_zero _ _ hr)]
      rw [xor_two_pow_add_self _ _ hr]
      have hodd : (i + 1) % 2 = 1 := by omega
      have hdiv : (i + 1) / 2 = i / 2 := by omega
      show _ = (i + 1) % 2 * 2 ^ (m + 1) + bitrev (m + 1) ((i + 1) / 2)
      rw [hodd, hdiv]
      ring
    · have hi2 : i / 2 + 1 < 2 ^ (m + 1) := by omega
      have h1 : bitrev (m + 2) i = 2 ^ (m + 1) + bitrev (m + 1) (i / 2) := by
        show i % 2 * 2 ^ (m + 1) + bitrev (m + 1) (i / 2) = _
        rw [hpar]
        ring
      rw [h1, revCarry, dif_pos (land_two_pow_add_ne_zero _ _ hr)]
      rw [xor_two_pow_cancel _ _ hr]
      have hbit : 2 ^ (m + 1) / 2 = 2 ^ m := by
        rw [pow_succ]
        omega
      rw [hbit, ih (i / 2) hi2]
      have heven : (i + 1) % 2 = 0 := by omega
      have hdiv : (i + 1) / 2 = i / 2 + 1 := by omega
      show _ = (i + 1) % 2 * 2 ^ (m + 1) + bitrev (m + 1) ((i + 1) / 2)
      rw [heven, hdiv]
      ring

theorem listSwap_length (x : List ℂ) (i j : ℕ) : (listSwap x i j).length = x.length := by
  simp [listSwap]

theorem listSwap_getD (x : List ℂ) (i j p : ℕ) (hi : i < x.length) (hj : j < x.length) :
    (listSwap x i j).getD p 0 =
      if p = j then x.getD i 0
      else if p = i then x.getD j 0
      else x.getD p 0 := by
  unfold listSwap
  rcases eq_or_ne p j with rfl | hpj
  · rw [if_pos rfl, List.getD_eq_getElem?_getD,
      List.getElem?_set_self (by simpa using hj)]
    rfl
  · rw [if_neg hpj, List.getD_eq_getElem?_getD, List.getElem?_set_ne (Ne.symm hpj)]
    rcases eq_or_ne p i with rfl | hpi
    · rw [if_pos rfl, List.getElem?_set_self hi]
      rfl
    · rw [if_neg hpi, List.getElem?_set_ne (Ne.symm hpi), ← List.getD_eq_getElem?_getD]

/-- Invariant of the bit-reversal fold: after processing `i = 1..t` the
counter holds `bitrev m t` and every pair `{p, bitrev m p}` with an index
at most `t` has been put into bit-reversed position. -/
theorem brev_fold_inv (m : ℕ) (x : List ℂ) (hx : x.length = 2 ^ m) :
    ∀ t, t + 1 ≤ 2 ^ m →
      ((List.range' 1 t).foldl (brevStep (2 ^ m)) (x, 0)).2 = bitrev m t ∧
      ((List.range' 1 t).foldl (brevStep (2 ^ m)) (x, 0)).1.length = x.length ∧
      ∀ p, p < 2 ^ m →
        ((List.range' 1 t).foldl (brevStep (2 ^ m)) (x, 0)).1.getD p 0 =
          if p ≤ t ∨ bitrev m p ≤ t then x.getD (bitrev m p) 0 else x.getD p 0 := by
  intro t
  induction t with
  | zero =>
    intro _
    refine ⟨by simp [bitrev_zero_eq], by simp, ?_⟩
    intro p hp
    simp only [List.range'_zero, List.foldl_nil]
    split_ifs with hcond
    · have hp0 : p = 0 := by
        rcases hcond with h0 | h0
        · omega
        · have hb0 : bitrev m p = 0 := by omega
          have := bitrev_bitrev m p hp
          rw [hb0, bitrev_zero_eq] at this
          omega
      subst hp0
      rw [bitrev_zero_eq]
    · rfl
  | succ t iht =>
    intro ht
    have ht' : t + 1 ≤ 2 ^ m := by omega
    obtain ⟨hj, hlen, hget⟩ := iht ht'
    have hm1 : ∃ m', m = m' + 1 := by
      cases m with
      | zero => omega
      | succ m' => exact ⟨m', rfl⟩
    obtain ⟨m', rfl⟩ := hm1
    have hstep : ((List.range' 1 (t + 1)).foldl (brevStep (2 ^ (m' + 1))) (x, 0)) =
        brevStep (2 ^ (m' + 1))
          ((List.range' 1 t).foldl (brevStep (2 ^ (m' + 1))) (x, 0)) (1 + t) := by
      rw [List.range'_1_concat 1 t, List.foldl_append, List.foldl_cons, List.foldl_nil]
    have hbit : 2 ^ (m' + 1) / 2 = 2 ^ m' := by
      rw [pow_succ]
      omega
    have hnewj : revCarry ((List.range' 1 t).foldl (brevStep (2 ^ (m' + 1))) (x, 0)).2
        (2 ^ (m' + 1) / 2) = bitrev (m' + 1) (t + 1) := by
      rw [hbit, hj]
      exact revCarry_bitrev m' t (by omega)
    set st := (List.range' 1 t).foldl (brevStep (2 ^ (m' + 1))) (x, 0) with hst
    refine ⟨?_, ?_, ?_⟩
    · rw [hstep]
      show (brevStep (2 ^ (m' + 1)) st (1 + t)).2 = _
      simp only [brevStep, hnewj]
    · rw [hstep]
      show (brevStep (2 ^ (m' + 1)) st (1 + t)).1.length = _
      simp only [brevStep, hnewj]
      split
      · rw [listSwap_length]
        exact hlen
      · exact hlen
    · intro p hp
      rw [hstep]
      show (brevStep (2 ^ (m' + 1)) st (1 + t)).1.getD p 0 = _
      simp only [brevStep, hnewj]
      have hrevlt : bitrev (m' + 1) (t + 1) < 2 ^ (m' + 1) := bitrev_lt _ _
      have hrevrev : bitrev (m' + 1) (bitrev (m' + 1) (t + 1)) = t + 1 :=
        bitrev_bitrev _ _ (by omega)
      have hbp : ∀ q, q < 2 ^ (m' + 1) → bitrev (m' + 1) q = t + 1 →
          q = bitrev (m' + 1) (t + 1) := by
        intro q hq hbq
        have := bitrev_bitrev (m' + 1) q hq
        rw [hbq] at this
        omega
      rcases lt_trichotomy (1 + t) (bitrev (m' + 1) (t + 1)) with hcase | hcase | hcase
      · -- the pair (t+1, bitrev (t+1)) is swapped now
        rw [if_pos hcase]
        rw [listSwap_getD st.1 (1 + t) (bitrev (m' + 1) (t + 1)) p
          (by rw [hlen, hx]; omega) (by rw [hlen, hx]; omega)]
        rcases eq_or_ne p (bitrev (m' + 1) (t + 1)) with rfl | hpr
        · rw [if_pos rfl]
          rw [show (1 + t) = t + 1 by omega]
          rw [hget (t + 1) (by omega)]
          rw [if_neg (by
            push_neg
            exact ⟨by omega, by omega⟩)]
          rw [if_pos (Or.inr (le_of_eq hrevrev))]
          rw [hrevrev]
        · rw [if_neg hpr]
          rcases eq_or_ne p (t + 1) with rfl | hpt
          · rw [if_pos (by omega)]
            rw [hget (bitrev (m' + 1) (t + 1)) hrevlt]
            rw [if_neg (by
              push_neg
              refine ⟨by omega, ?_⟩
              rw [hrevrev]
              omega)]
            rw [if_pos (Or.inl (le_refl _))]
          · rw [if_neg (by omega)]
            rw [hget p hp]
            have hiff : (p ≤ t ∨ bitrev (m' + 1) p ≤ t) ↔
                (p ≤ t + 1 ∨ bitrev (m' + 1) p ≤ t + 1) := by
              constructor
              · rintro (h | h)
                · exact Or.inl (by omega)
                · exact Or.inr (by omega)
              · rintro (h | h)
                · exact Or.inl (by omega)
                · have hne : bitrev (m' + 1) p ≠ t + 1 := fun hb => hpr (hbp p hp hb)
                  exact Or.inr (by omega)
            rw [if_congr hiff rfl rfl]
      · -- fixed point of the permutation: no swap needed
        rw [if_neg (by omega)]
        rw [hget p hp]
        have hfix : bitrev (m' + 1) (t + 1) = t + 1 := by omega
        split_ifs with hc1 hc2 hc2
        · rfl
        · exact absurd
            (by
              rcases hc1 with h | h
              · exact Or.inl (by omega)
              · exact Or.inr (by omega)) hc2
        · push_neg at hc1
          have hpeq : bitrev (m' + 1) p = p := by
            rcases hc2 with h | h
            · have hpt : p = t + 1 := by omega
              rw [hpt, hfix]
            · have hrevp : bitrev (m' + 1) p = t + 1 := by omega
              have hh := bitrev_bitrev (m' + 1) p hp
              rw [hrevp, hfix] at hh
              rw [hrevp, hh]
          rw [hpeq]
        · rfl
      · -- partner index was already processed at an earlier iteration
        rw [if_neg (by omega)]
        rw [hget p hp]
        have hiff : (p ≤ t ∨ bitrev (m' + 1) p ≤ t) ↔
            (p ≤ t + 1 ∨ bitrev (m' + 1) p ≤ t + 1) := by
          constructor
          · rintro (h | h)
            · exact Or.inl (by omega)
            · exact Or.inr (by omega)
          · rintro (h | h)
            · rcases eq_or_ne p (t + 1) with rfl | hne
              · exact Or.inr (by omega)
              · exact Or.inl (by omega)
            · rcases eq_or_ne (bitrev (m' + 1) p) (t + 1) with heq | hne
              · have hpq := hbp p hp heq
                exact Or.inl (by omega)
              · exact Or.inr (by omega)
        rw [if_congr hiff rfl rfl]

/-- The incremental bit-reversal pass of `simple_fft` realizes exactly the
bit-reversal permutation. -/
theorem bitrevPass_eq_brevList (m : ℕ) (x : List ℂ) (hx : x.length = 2 ^ m) :
    bitrevPass (2 ^ m) x = brevList m x := by
  have hpow : 1 ≤ 2 ^ m := Nat.one_le_two_pow
  obtain ⟨hj, hlen, hget⟩ := brev_fold_inv m x hx (2 ^ m - 1) (by omega)
  unfold bitrevPass
  apply List.ext_getElem
  · rw [hlen, hx]
    simp [brevList]
  · intro n h1 h2
    have hn : n < 2 ^ m := by
      rw [hlen, hx] at h1
      exact h1
    rw [← List.getD_eq_getElem _ 0 h1, ← List.getD_eq_getElem _ 0 h2]
    rw [hget n hn, if_pos (Or.inl (by omega))]
    unfold brevList
    rw [getD_map_range_c _ _ _ n hn]

theorem butterflies_spec (wlen : ℂ) :
    ∀ (us vs : List ℂ) (L : ℕ) (w : ℂ), us.length = L → vs.length = L →
      butterflies wlen w us vs =
        ((List.range L).map fun j => us.getD j 0 + wlen ^ j * w * vs.getD j 0,
         (List.range L).map fun j => us.getD j 0 - wlen ^ j * w * vs.getD j 0) := by
  intro us
  induction us with
  | nil =>
    intro vs L w hu hv
    subst hu
    simp [butterflies]
  | cons u us ih =>
    intro vs L w hu hv
    cases vs with
    | nil => simp [← hv] at hu
    | cons v vs =>
      cases L with
      | zero => simp at hu
      | succ L =>
        simp only [List.length_cons, Nat.succ.injEq] at hu hv
        simp only [butterflies]
        rw [ih vs L (w * wlen) hu hv]
        rw [List.range_succ_eq_map]
        simp only [List.map_cons, List.map_map, List.getD_cons_zero, Prod.mk.injEq]
        constructor
        · refine List.cons_eq_cons.mpr ⟨by ring, ?_⟩
          apply List.map_congr_left
          intro a _
          simp only [Function.comp, List.getD_cons_succ, Nat.succ_eq_add_one, pow_succ]
          ring
        · refine List.cons_eq_cons.mpr ⟨by ring, ?_⟩
          apply List.map_congr_left
          intro a _
          simp only [Function.comp, List.getD_cons_succ, Nat.succ_eq_add_one, pow_succ]
          ring

theorem butterflies_length (wlen : ℂ) :
    ∀ (us vs : List ℂ) (w : ℂ), us.length = vs.length →
      (butterflies wlen w us vs).1.length = us.length ∧
      (butterflies wlen w us vs).2.length = us.length := by
  intro us
  induction us with
  | nil =>
    intro vs w _
    simp [butterflies]
  | cons u us ih =>
    intro vs w h
    cases vs with
    | nil => simp at h
    | cons v vs =>
      simp only [List.length_cons, Nat.succ.injEq] at h
      simp only [butterflies, List.length_cons]
      exact ⟨by rw [(ih vs (w * wlen) h).1], by rw [(ih vs (w * wlen) h).2]⟩

theorem stageBlock_length (wlen : ℂ) (len : ℕ) (y : List ℂ)
    (hy : y.length = len) (heven : len % 2 = 0) :
    (stageBlock wlen len y).length = len := by
  unfold stageBlock
  have ht : (y.take (len / 2)).length = len / 2 := by
    rw [List.length_take, hy]
    omega
  have hd : (y.drop (len / 2)).length = len / 2 := by
    rw [List.length_drop, hy]
    omega
  obtain ⟨h1, h2⟩ := butterflies_length wlen (y.take (len / 2)) (y.drop (len / 2)) 1
    (by rw [ht, hd])
  rw [List.length_append, h1, h2, ht]
  omega

theorem stageChunks_nil (wlen : ℂ) (len : ℕ) : stageChunks wlen len [] = [] := by
  rw [stageChunks]
  exact dif_pos (Or.inr rfl)

theorem stageChunks_single (wlen : ℂ) (len : ℕ) (y : List ℂ)
    (hy : y.length = len) (hpos : 0 < len) :
    stageChunks wlen len y = stageBlock wlen len y := by
  rw [stageChunks]
  rw [dif_neg (by
    push_neg
    constructor
    · omega
    · intro hcontra
      rw [hcontra] at hy
      simp at hy
      omega)]
  rw [← hy, List.take_length, List.drop_length, stageChunks_nil, List.append_nil]

theorem stageChunks_append (wlen : ℂ) (len : ℕ) (hpos : 0 < len) :
    ∀ (k : ℕ) (u v : List ℂ), u.length = len * k →
      stageChunks wlen len (u ++ v) = stageChunks wlen len u ++ stageChunks wlen len v := by
  intro k
  induction k with
  | zero =>
    intro u v hu
    have : u = [] := List.length_eq_zero.mp (by omega)
    subst this
    rw [stageChunks_nil]
    simp
  | succ k ih =>
    intro u v hu
    have hul : len ≤ u.length := by
      rw [hu]
      nlinarith
    have hune : u ≠ [] := by
      intro hcontra
      rw [hcontra] at hul
      simp at hul
      omega
    have huv : u ++ v ≠ [] := by
      intro hcontra
      exact hune (List.append_eq_nil.mp hcontra).1
    rw [stageChunks]
    rw [dif_neg (by
      push_neg
      exact ⟨by omega, huv⟩)]
    rw [List.take_append_of_le_length hul, List.drop_append_of_le_length hul]
    rw [ih (u.drop len) v (by rw [List.length_drop, hu]; ring_nf; omega)]
    conv_rhs => rw [stageChunks]
    rw [dif_neg (by
      push_neg
      exact ⟨by omega, hune⟩)]
    rw [List.append_assoc]

theorem stageChunks_length (wlen : ℂ) (len : ℕ) (heven : len % 2 = 0) :
    ∀ (k : ℕ) (y : List ℂ), y.length = len * k →
      (stageChunks wlen len y).length = y.length := by
  intro k
  induction k with
  | zero =>
    intro y hy
    have : y = [] := List.length_eq_zero.mp (by omega)
    subst this
    rw [stageChunks_nil]
  | succ k ih =>
    intro y hy
    rcases Nat.eq_zero_or_pos len with hlen0 | hpos
    · subst hlen0
      rw [stageChunks]
      rw [dif_pos (Or.inl rfl)]
    · have hyl : len ≤ y.length := by
        rw [hy]
        nlinarith
      have hyne : y ≠ [] := by
        intro hcontra
        rw [hcontra] at hyl
        simp at hyl
        omega
      rw [stageChunks]
      rw [dif_neg (by
        push_neg
        exact ⟨by omega, hyne⟩)]
      rw [List.length_append]
      rw [stageBlock_length wlen len (y.take len) (by rw [List.length_take]; omega) heven]
      rw [ih (y.drop len) (by rw [List.length_drop, hy]; ring_nf; omega)]
      rw [List.length_drop]
      omega

theorem stagesUpTo_length (w : ℕ → ℂ) :
    ∀ (s : ℕ) (x : List ℂ), 2 ^ s ∣ x.length →
      (stagesUpTo w s x).length = x.length := by
  intro s
  induction s with
  | zero =>
    intro x _
    rfl
  | succ s ih =>
    intro x hdvd
    show (stageChunks (w (2 ^ (s + 1))) (2 ^ (s + 1)) (stagesUpTo w s x)).length = _
    have hdvd' : 2 ^ s ∣ x.length := dvd_trans (pow_dvd_pow 2 (by omega)) hdvd
    have hlen := ih x hdvd'
    obtain ⟨k, hk⟩ := hdvd
    rw [stageChunks_length (w (2 ^ (s + 1))) (2 ^ (s + 1))
      (by rw [pow_succ]; exact Nat.mul_mod_left _ _) k (stagesUpTo w s x)
      (by rw [hlen, hk])]
    exact hlen

theorem stagesUpTo_append (w : ℕ → ℂ) :
    ∀ (s : ℕ) (u v : List ℂ), 2 ^ s ∣ u.length →
      stagesUpTo w s (u ++ v) = stagesUpTo w s u ++ stagesUpTo w s v := by
  intro s
  induction s with
  | zero =>
    intro u v _
    rfl
  | succ s ih =>
    intro u v hdvd
    have hdvd' : 2 ^ s ∣ u.length := dvd_trans (pow_dvd_pow 2 (by omega)) hdvd
    show stageChunks (w (2 ^ (s + 1))) (2 ^ (s + 1)) (stagesUpTo w s (u ++ v)) = _
    rw [ih u v hdvd']
    obtain ⟨k, hk⟩ := hdvd
    exact stageChunks_append (w (2 ^ (s + 1))) (2 ^ (s + 1)) (by positivity) k
      (stagesUpTo w s u) (stagesUpTo w s v)
      (by rw [stagesUpTo_length w s u hdvd', hk])

theorem evens_getD : ∀ (l : List ℂ) (a : ℕ), (evens l).getD a 0 = l.getD (2 * a) 0 := by
  intro l
  induction l using evens.induct with
  | case1 =>
    intro a
    simp [evens]
  | case2 x =>
    intro a
    cases a with
    | zero => rfl
    | succ a =>
      show ([x].getD (a + 1) 0) = [x].getD (2 * (a + 1)) 0
      rw [show 2 * (a + 1) = (2 * a + 1) + 1 by ring]
      simp
  | case3 x y t ih =>
    intro a
    show (x :: evens t).getD a 0 = (x :: y :: t).getD (2 * a) 0
    cases a with
    | zero => rfl
    | succ a =>
      rw [List.getD_cons_succ, ih a,
        show 2 * (a + 1) = (2 * a + 1) + 1 by ring,
        List.getD_cons_succ, List.getD_cons_succ]

theorem odds_getD : ∀ (l : List ℂ) (a : ℕ), (odds l).getD a 0 = l.getD (2 * a + 1) 0 := by
  intro l
  induction l using odds.induct with
  | case1 =>
    intro a
    simp [odds]
  | case2 x =>
    intro a
    show (([] : List ℂ).getD a 0) = [x].getD (2 * a + 1) 0
    rw [show 2 * a + 1 = (2 * a) + 1 by ring]
    cases h2a : 2 * a with
    | zero => simp
    | succ b => simp
  | case3 x y t ih =>
    intro a
    show (y :: odds t).getD a 0 = (x :: y :: t).getD (2 * a + 1) 0
    cases a with
    | zero => rfl
    | succ a =>
      rw [List.getD_cons_succ, ih a,
        show 2 * (a + 1) + 1 = (2 * a + 1) + 1 + 1 by ring,
        List.getD_cons_succ, List.getD_cons_succ]

theorem evens_length : ∀ l : List ℂ, (evens l).length = (l.length + 1) / 2 := by
  intro l
  induction l using evens.induct with
  | case1 => rfl
  | case2 x => simp [evens]
  | case3 x y t ih =>
    show (x :: evens t).length = ((x :: y :: t).length + 1) / 2
    simp only [List.length_cons, ih]
    omega

theorem odds_length : ∀ l : List ℂ, (odds l).length = l.length / 2 := by
  intro l
  induction l using odds.induct with
  | case1 => rfl
  | case2 x => simp [odds]
  | case3 x y t ih =>
    show (y :: odds t).length = (x :: y :: t).length / 2
    simp only [List.length_cons, ih]
    omega

theorem sum_range_even_odd (f : ℕ → ℂ) : ∀ n : ℕ,
    ∑ j in Finset.range (2 * n), f j =
      (∑ a in Finset.range n, f (2 * a)) + ∑ a in Finset.range n, f (2 * a + 1) := by
  intro n
  induction n with
  | zero => simp
  | succ n ih =>
    rw [show 2 * (n + 1) = (2 * n + 1) + 1 by ring, Finset.sum_range_succ,
      Finset.sum_range_succ, Finset.sum_range_succ, Finset.sum_range_succ, ih]
    ring

theorem dft_length (w : ℂ) (n : ℕ) (x : List ℂ) : (dft w n x).length = n := by
  simp [dft]

theorem dft_getD (w : ℂ) (n : ℕ) (x : List ℂ) (k : ℕ) (hk : k < n) :
    (dft w n x).getD k 0 = ∑ j in Finset.range n, x.getD j 0 * w ^ (j * k) := by
  unfold dft
  exact getD_map_range_c _ _ n k hk

/-- Danielson-Lanczos: the lower half of the size-`2N` Fourier sum. -/
theorem dl_first_half (ζ ωm : ℂ) (hζsq : ζ * ζ = ωm) (N : ℕ) (x : List ℂ) (k : ℕ) :
    ∑ j in Finset.range (2 * N), x.getD j 0 * ζ ^ (j * k) =
      (∑ a in Finset.range N, (evens x).getD a 0 * ωm ^ (a * k)) +
        ζ ^ k * ∑ a in Finset.range N, (odds x).getD a 0 * ωm ^ (a * k) := by
  rw [sum_range_even_odd]
  congr 1
  · apply Finset.sum_congr rfl
    intro a _
    rw [evens_getD]
    congr 1
    rw [show 2 * a * k = 2 * (a * k) by ring, pow_mul, pow_two, hζsq]
  · rw [Finset.mul_sum]
    apply Finset.sum_congr rfl
    intro a _
    rw [odds_getD]
    rw [show (2 * a + 1) * k = 2 * (a * k) + k by ring, pow_add, pow_mul, pow_two, hζsq]
    ring

/-- Danielson-Lanczos: the upper half of the size-`2N` Fourier sum. -/
theorem dl_second_half (ζ ωm : ℂ) (N : ℕ) (hζsq : ζ * ζ = ωm) (hζneg : ζ ^ N = -1)
    (x : List ℂ) (k : ℕ) :
    ∑ j in Finset.range (2 * N), x.getD j 0 * ζ ^ (j * (N + k)) =
      (∑ a in Finset.range N, (evens x).getD a 0 * ωm ^ (a * k)) -
        ζ ^ k * ∑ a in Finset.range N, (odds x).getD a 0 * ωm ^ (a * k) := by
  rw [sum_range_even_odd]
  have heven : ∀ a, x.getD (2 * a) 0 * ζ ^ (2 * a * (N + k)) =
      (evens x).getD a 0 * ωm ^ (a * k) := by
    intro a
    rw [evens_getD]
    congr 1
    rw [show 2 * a * (N + k) = N * (2 * a) + 2 * (a * k) by ring, pow_add,
      pow_mul ζ N, hζneg,
      show ((-1 : ℂ)) ^ (2 * a) = 1 from by rw [pow_mul]; norm_num]
    rw [pow_mul, pow_two, hζsq]
    ring
  have hodd : ∀ a, x.getD (2 * a + 1) 0 * ζ ^ ((2 * a + 1) * (N + k)) =
      -(ζ ^ k * ((odds x).getD a 0 * ωm ^ (a * k))) := by
    intro a
    rw [odds_getD]
    rw [show (2 * a + 1) * (N + k) = N * (2 * a + 1) + (2 * (a * k) + k) by ring,
      pow_add, pow_mul ζ N, hζneg,
      show ((-1 : ℂ)) ^ (2 * a + 1) = -1 from by
        rw [pow_succ, pow_mul]
        norm_num]
    rw [pow_add, pow_mul, pow_two, hζsq]
    ring
  rw [Finset.sum_congr rfl fun a _ => heven a, Finset.sum_congr rfl fun a _ => hodd a]
  rw [Finset.sum_neg_distrib, Finset.mul_sum]
  ring

theorem brevList_length (m : ℕ) (x : List ℂ) : (brevList m x).length = 2 ^ m := by
  simp [brevList]

/-- The stage loop applied after the bit-reversal reordering computes the
discrete Fourier transform, provided the per-stage twiddles satisfy the
square and half-period relations. -/
theorem stages_dft (w : ℕ → ℂ) :
    ∀ m : ℕ,
      (∀ t, 1 ≤ t → t ≤ m → w (2 ^ t) * w (2 ^ t) = w (2 ^ (t - 1))) →
      (∀ t, 1 ≤ t → t ≤ m → w (2 ^ t) ^ 2 ^ (t - 1) = -1) →
      ∀ x : List ℂ, x.length = 2 ^ m →
        stagesUpTo w m (brevList m x) = dft (w (2 ^ m)) (2 ^ m) x := by
  intro m
  induction m with
  | zero =>
    intro _ _ x hx
    show brevList 0 x = dft (w (2 ^ 0)) (2 ^ 0) x
    unfold brevList dft
    simp [bitrev]
  | succ m ih =>
    intro hsq hneg x hx
    have hζsq : w (2 ^ (m + 1)) * w (2 ^ (m + 1)) = w (2 ^ m) := by
      have := hsq (m + 1) (by omega) (le_refl _)
      simpa using this
    have hζneg : w (2 ^ (m + 1)) ^ 2 ^ m = -1 := by
      have := hneg (m + 1) (by omega) (le_refl _)
      simpa using this
    have hE : (evens x).length = 2 ^ m := by
      rw [evens_length, hx, pow_succ]
      omega
    have hO : (odds x).length = 2 ^ m := by
      rw [odds_length, hx, pow_succ]
      omega
    have hsq' : ∀ t, 1 ≤ t → t ≤ m → w (2 ^ t) * w (2 ^ t) = w (2 ^ (t - 1)) :=
      fun t h1 h2 => hsq t h1 (by omega)
    have hneg' : ∀ t, 1 ≤ t → t ≤ m → w (2 ^ t) ^ 2 ^ (t - 1) = -1 :=
      fun t h1 h2 => hneg t h1 (by omega)
    have hsplit : brevList (m + 1) x = brevList m (evens x) ++ brevList m (odds x) := by
      unfold brevList
      rw [show (2 : ℕ) ^ (m + 1) = 2 ^ m + 2 ^ m by rw [pow_succ]; ring]
      rw [List.range_add, List.map_append, List.map_map]
      congr 1
      · apply List.map_congr_left
        intro i hi
        rw [bitrev_succ_lt m i (List.mem_range.mp hi), evens_getD]
      · apply List.map_congr_left
        intro i hi
        simp only [Function.comp]
        rw [bitrev_succ_ge m i (List.mem_range.mp hi), odds_getD]
    show stageChunks (w (2 ^ (m + 1))) (2 ^ (m + 1)) (stagesUpTo w m (brevList (m + 1) x)) = _
    rw [hsplit, stagesUpTo_append w m _ _ (by rw [brevList_length])]
    rw [ih hsq' hneg' (evens x) hE, ih hsq' hneg' (odds x) hO]
    have hlenE : (dft (w (2 ^ m)) (2 ^ m) (evens x)).length = 2 ^ m := dft_length _ _ _
    have hlenO : (dft (w (2 ^ m)) (2 ^ m) (odds x)).length = 2 ^ m := dft_length _ _ _
    rw [stageChunks_single (w (2 ^ (m + 1))) (2 ^ (m + 1)) _
      (by rw [List.length_append, hlenE, hlenO, pow_succ]; ring) (by positivity)]
    have hhalf : 2 ^ (m + 1) / 2 = 2 ^ m := by
      rw [pow_succ]
      omega
    have hN : (2 : ℕ) ^ (m + 1) = 2 ^ m + 2 ^ m := by
      rw [pow_succ]
      ring
    have hblock : stageBlock (w (2 ^ (m + 1))) (2 ^ (m + 1))
        (dft (w (2 ^ m)) (2 ^ m) (evens x) ++ dft (w (2 ^ m)) (2 ^ m) (odds x)) =
        ((List.range (2 ^ m)).map fun j =>
          (dft (w (2 ^ m)) (2 ^ m) (evens x)).getD j 0 +
            w (2 ^ (m + 1)) ^ j * 1 * (dft (w (2 ^ m)) (2 ^ m) (odds x)).getD j 0) ++
        ((List.range (2 ^ m)).map fun j =>
          (dft (w (2 ^ m)) (2 ^ m) (evens x)).getD j 0 -
            w (2 ^ (m + 1)) ^ j * 1 * (dft (w (2 ^ m)) (2 ^ m) (odds x)).getD j 0) := by
      unfold stageBlock
      rw [hhalf, List.take_left' hlenE, List.drop_left' hlenE,
        butterflies_spec (w (2 ^ (m + 1))) _ _ (2 ^ m) 1 hlenE hlenO]
    rw [hblock]
    have hdft : dft (w (2 ^ (m + 1))) (2 ^ (m + 1)) x =
        ((List.range (2 ^ m)).map fun k =>
          ∑ j in Finset.range (2 ^ (m + 1)), x.getD j 0 * w (2 ^ (m + 1)) ^ (j * k)) ++
        ((List.range (2 ^ m)).map fun k =>
          ∑ j in Finset.range (2 ^ (m + 1)),
            x.getD j 0 * w (2 ^ (m + 1)) ^ (j * (2 ^ m + k))) := by
      unfold dft
      have hrange : List.range (2 ^ (m + 1)) =
          List.range (2 ^ m) ++ (List.range (2 ^ m)).map fun i => 2 ^ m + i := by
        rw [hN, List.range_add]
      rw [hrange, List.map_append, List.map_map]
      rfl
    rw [hdft]
    have hfr : Finset.range (2 ^ (m + 1)) = Finset.range (2 * 2 ^ m) :=
      congrArg Finset.range (by rw [pow_succ]; ring)
    congr 1
    · apply List.map_congr_left
      intro k hk
      have hk' : k < 2 ^ m := List.mem_range.mp hk
      rw [dft_getD _ _ _ k hk', dft_getD _ _ _ k hk', hfr,
        dl_first_half (w (2 ^ (m + 1))) (w (2 ^ m)) hζsq (2 ^ m) x k]
      ring
    · apply List.map_congr_left
      intro k hk
      have hk' : k < 2 ^ m := List.mem_range.mp hk
      rw [dft_getD _ _ _ k hk', dft_getD _ _ _ k hk', hfr,
        dl_second_half (w (2 ^ (m + 1))) (w (2 ^ m)) (2 ^ m) hζsq hζneg x k]
      ring

theorem fftTwiddle_exp (len : ℕ) :
    fftTwiddle len = Complex.exp (((2 * π / (len : ℝ) : ℝ) : ℂ) * Complex.I) := by
  unfold fftTwiddle
  rw [Complex.exp_mul_I, Complex.ofReal_cos, Complex.ofReal_sin]

theorem ifftTwiddle_exp (len : ℕ) :
    ifftTwiddle len =
      Complex.exp (((-(2 * π) / (len : ℝ) : ℝ) : ℂ) * Complex.I) := by
  unfold ifftTwiddle
  rw [Complex.exp_mul_I, Complex.ofReal_cos, Complex.ofReal_sin]

theorem fftTwiddle_sq (t : ℕ) (ht : 1 ≤ t) :
    fftTwiddle (2 ^ t) * fftTwiddle (2 ^ t) = fftTwiddle (2 ^ (t - 1)) := by
  have key : 2 * π / ((2 ^ t : ℕ) : ℝ) + 2 * π / ((2 ^ t : ℕ) : ℝ) =
      2 * π / ((2 ^ (t - 1) : ℕ) : ℝ) := by
    obtain ⟨s, rfl⟩ : ∃ s, t = s + 1 := ⟨t - 1, by omega⟩
    push_cast
    simp only [Nat.add_sub_cancel, pow_succ]
    have hp : ((2 : ℝ) ^ s) ≠ 0 := by positivity
    field_simp
    ring
  rw [fftTwiddle_exp, fftTwiddle_exp, ← Complex.exp_add,
    ← add_mul, ← Complex.ofReal_add, key]

theorem ifftTwiddle_sq (t : ℕ) (ht : 1 ≤ t) :
    ifftTwiddle (2 ^ t) * ifftTwiddle (2 ^ t) = ifftTwiddle (2 ^ (t - 1)) := by
  have key : -(2 * π) / ((2 ^ t : ℕ) : ℝ) + -(2 * π) / ((2 ^ t : ℕ) : ℝ) =
      -(2 * π) / ((2 ^ (t - 1) : ℕ) : ℝ) := by
    obtain ⟨s, rfl⟩ : ∃ s, t = s + 1 := ⟨t - 1, by omega⟩
    push_cast
    simp only [Nat.add_sub_cancel, pow_succ]
    have hp : ((2 : ℝ) ^ s) ≠ 0 := by positivity
    field_simp
    ring
  rw [ifftTwiddle_exp, ifftTwiddle_exp, ← Complex.exp_add,
    ← add_mul, ← Complex.ofReal_add, key]

theorem fftTwiddle_pow_half (t : ℕ) (ht : 1 ≤ t) :
    fftTwiddle (2 ^ t) ^ 2 ^ (t - 1) = -1 := by
  have hr : ((2 ^ (t - 1) : ℕ) : ℝ) * (2 * π / ((2 ^ t : ℕ) : ℝ)) = π := by
    obtain ⟨s, rfl⟩ : ∃ s, t = s + 1 := ⟨t - 1, by omega⟩
    push_cast
    simp only [Nat.add_sub_cancel, pow_succ]
    have hp : ((2 : ℝ) ^ s) ≠ 0 := by positivity
    field_simp
    ring
  have hc : ((2 ^ (t - 1) : ℕ) : ℂ) *
      (((2 * π / ((2 ^ t : ℕ) : ℝ) : ℝ) : ℂ) * Complex.I) =
      ((π : ℝ) : ℂ) * Complex.I := by
    rw [← mul_assoc,
      show ((2 ^ (t - 1) : ℕ) : ℂ) = (((2 ^ (t - 1) : ℕ) : ℝ) : ℂ) from by push_cast; ring,
      ← Complex.ofReal_mul, hr]
  rw [fftTwiddle_exp, ← Complex.exp_nat_mul, hc, Complex.exp_pi_mul_I]

theorem ifftTwiddle_pow_half (t : ℕ) (ht : 1 ≤ t) :
    ifftTwiddle (2 ^ t) ^ 2 ^ (t - 1) = -1 := by
  have hr : ((2 ^ (t - 1) : ℕ) : ℝ) * (-(2 * π) / ((2 ^ t : ℕ) : ℝ)) = -π := by
    obtain ⟨s, rfl⟩ : ∃ s, t = s + 1 := ⟨t - 1, by omega⟩
    push_cast
    simp only [Nat.add_sub_cancel, pow_succ]
    have hp : ((2 : ℝ) ^ s) ≠ 0 := by positivity
    field_simp
    ring
  have hc : ((2 ^ (t - 1) : ℕ) : ℂ) *
      (((-(2 * π) / ((2 ^ t : ℕ) : ℝ) : ℝ) : ℂ) * Complex.I) =
      -(((π : ℝ) : ℂ) * Complex.I) := by
    rw [← mul_assoc,
      show ((2 ^ (t - 1) : ℕ) : ℂ) = (((2 ^ (t - 1) : ℕ) : ℝ) : ℂ) from by push_cast; ring,
      ← Complex.ofReal_mul, hr]
    push_cast
    ring
  rw [ifftTwiddle_exp, ← Complex.exp_nat_mul, hc, Complex.exp_neg,
    Complex.exp_pi_mul_I]
  norm_num

theorem simple_fft_eq_dft (m : ℕ) (x : List ℂ) (hx : x.length = 2 ^ m) :
    simple_fft m x = dft (fftTwiddle (2 ^ m)) (2 ^ m) x := by
  unfold simple_fft
  rw [bitrevPass_eq_brevList m x hx]
  exact stages_dft fftTwiddle m (fun t h1 _ => fftTwiddle_sq t h1)
    (fun t h1 _ => fftTwiddle_pow_half t h1) x hx

theorem simple_ifft_eq_dft (m : ℕ) (x : List ℂ) (hx : x.length = 2 ^ m) :
    simple_ifft m x =
      (dft (ifftTwiddle (2 ^ m)) (2 ^ m) x).map (· / ((2 ^ m : ℕ) : ℂ)) := by
  unfold simple_ifft
  rw [bitrevPass_eq_brevList m x hx]
  rw [stages_dft ifftTwiddle m (fun t h1 _ => ifftTwiddle_sq t h1)
    (fun t h1 _ => ifftTwiddle_pow_half t h1) x hx]

theorem twiddle_orth (N : ℕ) (hN : 0 < N) (j l : ℕ) (hj : j < N) (hl : l < N) :
    ∑ k in Finset.range N, fftTwiddle N ^ (j * k) * ifftTwiddle N ^ (k * l) =
      if j = l then (N : ℂ) else 0 := by
  have hterm : ∀ k, fftTwiddle N ^ (j * k) * ifftTwiddle N ^ (k * l) =
      Complex.exp (((((j : ℝ) - l) * (2 * π) / N : ℝ) : ℂ) * Complex.I) ^ k := by
    intro k
    rw [fftTwiddle_exp, ifftTwiddle_exp, ← Complex.exp_nat_mul,
      ← Complex.exp_nat_mul, ← Complex.exp_add, ← Complex.exp_nat_mul]
    congr 1
    push_cast
    ring
  rw [Finset.sum_congr rfl fun k _ => hterm k]
  by_cases hjl : j = l
  · subst hjl
    have hη : Complex.exp (((((j : ℝ) - j) * (2 * π) / N : ℝ) : ℂ) * Complex.I) = 1 := by
      simp
    rw [hη]
    simp
  · have hNR : ((N : ℝ)) ≠ 0 := by positivity
    have hη1 : Complex.exp (((((j : ℝ) - l) * (2 * π) / N : ℝ) : ℂ) * Complex.I) ≠ 1 := by
      intro h
      rw [Complex.exp_eq_one_iff] at h
      obtain ⟨n, hn⟩ := h
      rw [show (n : ℂ) * (2 * (π : ℂ) * Complex.I) = ((n : ℂ) * (2 * (π : ℂ))) * Complex.I
        from by ring] at hn
      have h2 := mul_right_cancel₀ Complex.I_ne_zero hn
      have h3 : ((j : ℝ) - l) * (2 * π) / N = (n : ℝ) * (2 * π) := by
        exact_mod_cast h2
      have h4 : (j : ℝ) - l = (n : ℝ) * N := by
        have h2π : (2 : ℝ) * π ≠ 0 := by positivity
        rw [div_eq_iff hNR] at h3
        have h5 : ((j : ℝ) - l) * (2 * π) = ((n : ℝ) * N) * (2 * π) := by
          calc ((j : ℝ) - l) * (2 * π) = (n : ℝ) * (2 * π) * N := h3
            _ = ((n : ℝ) * N) * (2 * π) := by ring
        exact mul_right_cancel₀ h2π h5
      have hz : (j : ℤ) - l = n * N := by exact_mod_cast h4
      have hne : (j : ℤ) - l ≠ 0 := by
        intro h0
        apply hjl
        omega
      have hn0 : n ≠ 0 := by
        intro h0
        rw [h0, zero_mul] at hz
        exact hne hz
      have habs : |(j : ℤ) - l| < N := by
        rw [abs_lt]
        constructor <;> omega
      have hge : (N : ℤ) ≤ |n * N| := by
        rw [abs_mul]
        calc (N : ℤ) = 1 * N := by ring
          _ ≤ |n| * N := by
              apply mul_le_mul_of_nonneg_right (Int.one_le_abs hn0)
              omega
          _ = |n| * |(N : ℤ)| := by
              rw [abs_of_nonneg (show (0 : ℤ) ≤ (N : ℤ) from by omega)]
      rw [hz] at habs
      exact absurd habs (not_lt.mpr hge)
    have hNCn : ((N : ℕ) : ℂ) ≠ 0 := Nat.cast_ne_zero.mpr (by omega)
    have hηN : Complex.exp (((((j : ℝ) - l) * (2 * π) / N : ℝ) : ℂ) * Complex.I) ^ N = 1 := by
      rw [← Complex.exp_nat_mul]
      rw [show ((N : ℂ)) * ((((((j : ℝ) - l) * (2 * π) / N : ℝ)) : ℂ) * Complex.I) =
          (((j : ℤ) - l : ℤ) : ℂ) * (2 * (π : ℂ) * Complex.I) from by
        push_cast
        field_simp [hNCn]
        ring]
      exact Complex.exp_int_mul_two_pi_mul_I _
    rw [if_neg hjl, geom_sum_eq hη1, hηN]
    simp

theorem dft_roundtrip_entry (N : ℕ) (hN : 0 < N) (x : List ℂ) (l : ℕ) (hl : l < N) :
    (dft (ifftTwiddle N) N (dft (fftTwiddle N) N x)).getD l 0 = N * x.getD l 0 := by
  rw [dft_getD _ _ _ l hl]
  have hk : ∀ k ∈ Finset.range N,
      (dft (fftTwiddle N) N x).getD k 0 * ifftTwiddle N ^ (k * l) =
      ∑ j in Finset.range N,
        x.getD j 0 * (fftTwiddle N ^ (j * k) * ifftTwiddle N ^ (k * l)) := by
    intro k hkmem
    rw [dft_getD _ _ _ k (Finset.mem_range.mp hkmem), Finset.sum_mul]
    exact Finset.sum_congr rfl fun j _ => by ring
  rw [Finset.sum_congr rfl hk, Finset.sum_comm]
  have hj : ∀ j ∈ Finset.range N,
      ∑ k in Finset.range N,
        x.getD j 0 * (fftTwiddle N ^ (j * k) * ifftTwiddle N ^ (k * l)) =
      x.getD j 0 * (if j = l then (N : ℂ) else 0) := by
    intro j hjm
    rw [← Finset.mul_sum, twiddle_orth N hN j l (Finset.mem_range.mp hjm) hl]
  rw [Finset.sum_congr rfl hj]
  rw [Finset.sum_eq_single l (fun b _ hb => by rw [if_neg hb, mul_zero])
    (fun h => absurd (Finset.mem_range.mpr hl) h)]
  rw [if_pos rfl]
  ring

/-- **C4**: for every power-of-two length `N = 2^m` and every complex buffer
`x` of that length, the normalized inverse FFT of the forward FFT reproduces
`x` exactly (exact complex arithmetic; exact equality is within every
positive tolerance, in particular 1e-9 relative). -/
theorem c4_fft_roundtrip (m : ℕ) (x : List ℂ) (hx : x.length = 2 ^ m) :
    simple_ifft m (simple_fft m x) = x := by
  have hN : 0 < 2 ^ m := by positivity
  have hNC : ((2 ^ m : ℕ) : ℂ) ≠ 0 := Nat.cast_ne_zero.mpr (by positivity)
  have hlen1 : (simple_fft m x).length = 2 ^ m := by
    rw [simple_fft_eq_dft m x hx]
    exact dft_length _ _ _
  rw [simple_ifft_eq_dft m (simple_fft m x) hlen1, simple_fft_eq_dft m x hx]
  apply List.ext_getElem
  · rw [List.length_map, dft_length, hx]
  · intro i h1 h2
    have hi : i < 2 ^ m := by
      rw [List.length_map, dft_length] at h1
      exact h1
    rw [List.getElem_map]
    rw [← List.getD_eq_getElem _ 0 (by rw [dft_length]; exact hi)]
    rw [dft_roundtrip_entry (2 ^ m) hN x i hi]
    rw [← List.getD_eq_getElem _ 0 h2]
    rw [mul_comm, mul_div_assoc, div_self hNC, mul_one]

/-- Witness for `c4_fft_roundtrip` at the concrete buffer `[1, i]`. -/
theorem c4_fft_roundtrip_witness :
    ([1, Complex.I] : List ℂ).length = 2 ^ 1 ∧
      simple_ifft 1 (simple_fft 1 [1, Complex.I]) = [1, Complex.I] :=
  ⟨by norm_num, c4_fft_roundtrip 1 [1, Complex.I] (by norm_num)⟩

end Aspl
